import Mathlib

/-!
Verification development for the myspice analog circuit simulator core.

The Rust sources under crates/sim-core and crates/sim-devices are embedded
shallowly: f64 arithmetic is modelled by an arbitrary linear ordered field K
(exact arithmetic), Vec and per-column entry lists by Lean lists, and the
HashMap-backed aux-variable table by its insertion-ordered id_to_name list
(the map name_to_id is recovered by positional lookup, which is exactly the
invariant the Rust code maintains).  Code of the repository that is not in
the provided sources (newton.rs, threshold.rs, mobility.rs, channel.rs) is
modelled from the specification; such definitions carry a doc comment
starting with the words Modelled from the spec.
-/

set_option linter.unusedSectionVars false
set_option linter.unusedVariables false

namespace MySpice

section BuilderDefs

variable {K : Type}

/-- Embeds mna.rs SparseBuilder.  The Rust struct stores the dimension n as a
field kept equal to col_entries.len() by new and resize; here n is defined as
that length. -/
structure SparseBuilder (K : Type) where
  colEntries : List (List (ℕ × K))
deriving DecidableEq

/-- Dimension of the builder (the Rust field n). -/
def SparseBuilder.n (b : SparseBuilder K) : ℕ := b.colEntries.length

/-- Embeds SparseBuilder::new. -/
def SparseBuilder.new (n : ℕ) : SparseBuilder K := ⟨List.replicate n []⟩

/-- Embeds SparseBuilder::insert: out-of-range columns are silently ignored,
in-range columns get the (row, value) pair appended. -/
def SparseBuilder.insert (b : SparseBuilder K) (col row : ℕ) (value : K) :
    SparseBuilder K :=
  if b.n ≤ col then b
  else ⟨b.colEntries.set col (b.colEntries.getD col [] ++ [(row, value)])⟩

/-- Embeds SparseBuilder::resize: grows with empty columns, never shrinks. -/
def SparseBuilder.resize (b : SparseBuilder K) (newN : ℕ) : SparseBuilder K :=
  if newN ≤ b.n then b
  else ⟨b.colEntries ++ List.replicate (newN - b.n) []⟩

/-- Column col of the builder (empty when out of range). -/
def SparseBuilder.colAt (b : SparseBuilder K) (col : ℕ) : List (ℕ × K) :=
  b.colEntries.getD col []

/-- Comparison by row index used when finalize sorts a column. -/
def rowLe (e f : ℕ × K) : Prop := e.1 ≤ f.1

instance : DecidableRel (rowLe (K := K)) :=
  fun e f => inferInstanceAs (Decidable (e.1 ≤ f.1))

instance : IsTotal (ℕ × K) rowLe := ⟨fun e f => Nat.le_total e.1 f.1⟩

instance : IsTrans (ℕ × K) rowLe := ⟨fun _ _ _ h1 h2 => Nat.le_trans h1 h2⟩

/-- Sorting of one column by row, mirroring Rust sort_by_key on the row; both
are stable sorts, and all properties proved below are insensitive to the
order among entries of equal row. -/
def sortCol (col : List (ℕ × K)) : List (ℕ × K) :=
  List.insertionSort rowLe col

/-- Embeds SparseBuilder::finalize: each column is sorted by row ascending,
rows and values are concatenated into ai and ax, and ap collects the running
entry count, starting from 0.  Duplicate (row, col) entries are emitted
as-is; nothing is coalesced. -/
def SparseBuilder.finalize (b : SparseBuilder K) :
    List ℤ × List ℤ × List K :=
  let sorted := b.colEntries.map sortCol
  let ap := (sorted.scanl (fun nnz col => nnz + col.length) (0 : ℕ)).map
    (fun k => (k : ℤ))
  let ai := (sorted.map (fun col => col.map (fun e => (e.1 : ℤ)))).flatten
  let ax := (sorted.map (fun col => col.map (fun e => e.2))).flatten
  (ap, ai, ax)

end BuilderDefs

section CtxDefs

variable {K : Type} [LinearOrderedField K]

/-- Positional lookup in the aux-variable id_to_name list; models the
HashMap name_to_id of mna.rs AuxVarTable, whose value for a name is always
that name's index in id_to_name. -/
def auxLookup : List String → String → Option ℕ
  | [], _ => none
  | n :: rest, name => if n = name then some 0 else (auxLookup rest name).map (· + 1)

/-- Embeds mna.rs StampContext: a builder, the RHS vector, the aux table
(id_to_name), the node count and the two stamping knobs. -/
structure StampCtx (K : Type) where
  builder : SparseBuilder K
  rhs : List K
  aux : List String
  nodeCount : ℕ
  gmin : K
  sourceScale : K
deriving DecidableEq

/-- Embeds StampContext::add, which inserts at (row i, column j). -/
def StampCtx.add (s : StampCtx K) (i j : ℕ) (value : K) : StampCtx K :=
  { s with builder := s.builder.insert j i value }

/-- Embeds StampContext::add_rhs: accumulation into rhs[i], a no-op when i is
out of range (Rust get_mut returning None). -/
def StampCtx.addRhs (s : StampCtx K) (i : ℕ) (value : K) : StampCtx K :=
  if i < s.rhs.length then { s with rhs := s.rhs.set i (s.rhs.getD i 0 + value) }
  else s

/-- Semantics of Vec::resize(n, pad): truncate or pad to length n. -/
def listResize (l : List K) (n : ℕ) (pad : K) : List K :=
  l.take n ++ List.replicate (n - l.length) pad

/-- Embeds StampContext::allocate_aux together with
AuxVarTable::allocate_with_flag: an existing name returns its dense index
unchanged; a new name is appended, the builder is resized to
node_count + aux count and the RHS is resized (zero padded) to the builder
dimension. -/
def StampCtx.allocateAux (s : StampCtx K) (name : String) : ℕ × StampCtx K :=
  match auxLookup s.aux name with
  | some id => (s.nodeCount + id, s)
  | none =>
    let id := s.aux.length
    let aux' := s.aux ++ [name]
    let b' := s.builder.resize (s.nodeCount + aux'.length)
    let rhs' := listResize s.rhs b'.n 0
    (s.nodeCount + id, { s with aux := aux', builder := b', rhs := rhs' })

end CtxDefs

section BuilderLemmas

variable {K : Type}

theorem SparseBuilder.insert_of_ge (b : SparseBuilder K) {col : ℕ} (row : ℕ)
    (value : K) (h : b.n ≤ col) : b.insert col row value = b := by
  simp [SparseBuilder.insert, h]

theorem SparseBuilder.n_insert (b : SparseBuilder K) (col row : ℕ) (value : K) :
    (b.insert col row value).n = b.n := by
  unfold SparseBuilder.insert
  split
  · rfl
  · simp [SparseBuilder.n]

theorem SparseBuilder.n_new (n : ℕ) : (SparseBuilder.new (K := K) n).n = n := by
  simp [SparseBuilder.new, SparseBuilder.n]

theorem SparseBuilder.n_resize (b : SparseBuilder K) (newN : ℕ) :
    (b.resize newN).n = max b.n newN := by
  unfold SparseBuilder.resize SparseBuilder.n
  split
  · next h => omega
  · next h => simp; omega

theorem SparseBuilder.colAt_insert (b : SparseBuilder K) (col row : ℕ)
    (value : K) (j : ℕ) :
    (b.insert col row value).colAt j =
      if j = col ∧ col < b.n then b.colAt j ++ [(row, value)] else b.colAt j := by
  unfold SparseBuilder.insert SparseBuilder.colAt
  by_cases hc : b.n ≤ col
  · have hno : ¬ (j = col ∧ col < b.n) := by omega
    simp [hc, hno]
  · have hcol : col < b.colEntries.length := Nat.lt_of_not_le hc
    by_cases hj : j = col
    · subst hj
      have hyes : j = j ∧ j < b.n := ⟨rfl, Nat.lt_of_not_le hc⟩
      simp only [hc, if_false, hyes, if_true]
      rw [List.getD_eq_getElem?_getD, List.getElem?_set_self hcol]
      rfl
    · have hno : ¬ (j = col ∧ col < b.n) := by tauto
      simp only [hc, if_false, hno]
      rw [List.getD_eq_getElem?_getD,
        List.getElem?_set_ne (fun h => hj h.symm), ← List.getD_eq_getElem?_getD]

theorem SparseBuilder.colAt_resize (b : SparseBuilder K) (newN : ℕ) (j : ℕ) :
    (b.resize newN).colAt j = b.colAt j := by
  unfold SparseBuilder.resize SparseBuilder.colAt
  split
  · rfl
  · by_cases hj : j < b.colEntries.length
    · rw [List.getD_eq_getElem?_getD, List.getElem?_append_left hj,
        ← List.getD_eq_getElem?_getD]
    · rw [List.getD_eq_getElem?_getD, List.getElem?_append_right (by omega),
      List.getD_eq_getElem?_getD]
      rw [List.getElem?_eq_none (by omega : b.colEntries.length ≤ j),
        List.getElem?_replicate]
      split <;> rfl

end BuilderLemmas

/-- C10: out-of-range accumulation is a silent no-op.  An insert at a column
at or beyond the builder dimension leaves the builder unchanged, and an
add_rhs at an index at or beyond the RHS length leaves the context (hence
the RHS) unchanged; an in-range insert appends the entry, so neither
operation can abort. -/
theorem C10_out_of_range_noop {K : Type} [LinearOrderedField K] :
    (∀ (b : SparseBuilder K) (col row : ℕ) (value : K),
        b.n ≤ col → b.insert col row value = b) ∧
    (∀ (s : StampCtx K) (i : ℕ) (value : K),
        s.rhs.length ≤ i → s.addRhs i value = s) ∧
    (∀ (b : SparseBuilder K) (col row : ℕ) (value : K),
        col < b.n →
          (b.insert col row value).colAt col = b.colAt col ++ [(row, value)]) := by
  refine ⟨fun b col row value h => SparseBuilder.insert_of_ge b row value h,
    fun s i value h => ?_, fun b col row value h => ?_⟩
  · unfold StampCtx.addRhs
    rw [if_neg (by omega)]
  · rw [SparseBuilder.colAt_insert]
    simp [h]

/-- Closed witness for C10 at a concrete builder and context. -/
theorem C10_witness :
    (SparseBuilder.new (K := ℚ) 1).insert 5 0 3 = SparseBuilder.new 1 ∧
    (StampCtx.addRhs (K := ℚ)
        ⟨SparseBuilder.new 1, [0], [], 1, 0, 1⟩ 7 2 =
      ⟨SparseBuilder.new 1, [0], [], 1, 0, 1⟩) ∧
    ((SparseBuilder.new (K := ℚ) 1).insert 0 0 3).colAt 0 = [(0, 3)] := by
  refine ⟨C10_out_of_range_noop.1 _ 5 0 3 ?_, C10_out_of_range_noop.2.1 _ 7 2 ?_,
    ?_⟩
  · simp [SparseBuilder.n_new]
  · simp
  · have h := C10_out_of_range_noop.2.2 (SparseBuilder.new (K := ℚ) 1) 0 0 3
      (by simp [SparseBuilder.n_new])
    rw [h]
    simp [SparseBuilder.new, SparseBuilder.colAt]

section AuxLemmas

variable {K : Type} [LinearOrderedField K]

theorem auxLookup_cons (hd : String) (tl : List String) (name : String) :
    auxLookup (hd :: tl) name =
      if hd = name then some 0 else (auxLookup tl name).map (· + 1) := rfl

theorem auxLookup_append_self (l : List String) (name : String)
    (h : auxLookup l name = none) :
    auxLookup (l ++ [name]) name = some l.length := by
  induction l with
  | nil => simp [auxLookup]
  | cons hd tl ih =>
    rw [auxLookup_cons] at h
    rw [List.cons_append, auxLookup_cons]
    by_cases hh : hd = name
    · simp [hh] at h
    · rw [if_neg hh] at h ⊢
      have htl : auxLookup tl name = none := by
        cases hx : auxLookup tl name
        · rfl
        · rw [hx] at h
          simp at h
      rw [ih htl]
      simp

theorem auxLookup_inj (l : List String) (n1 n2 : String) (id : ℕ)
    (h1 : auxLookup l n1 = some id) (h2 : auxLookup l n2 = some id) : n1 = n2 := by
  induction l generalizing id with
  | nil => simp [auxLookup] at h1
  | cons hd tl ih =>
    rw [auxLookup_cons] at h1 h2
    by_cases e1 : hd = n1
    · by_cases e2 : hd = n2
      · rw [← e1, ← e2]
      · rw [if_pos e1] at h1
        rw [if_neg e2] at h2
        obtain ⟨v, hv, hv1⟩ := Option.map_eq_some'.mp h2
        have h0 : id = 0 := by
          injection h1 with h1
          omega
        omega
    · by_cases e2 : hd = n2
      · rw [if_neg e1] at h1
        rw [if_pos e2] at h2
        obtain ⟨v, hv, hv1⟩ := Option.map_eq_some'.mp h1
        have h0 : id = 0 := by
          injection h2 with h2
          omega
        omega
      · rw [if_neg e1] at h1
        rw [if_neg e2] at h2
        obtain ⟨v1, hv1, he1⟩ := Option.map_eq_some'.mp h1
        obtain ⟨v2, hv2, he2⟩ := Option.map_eq_some'.mp h2
        have : v1 = v2 := by omega
        exact ih v1 hv1 (this ▸ hv2)

end AuxLemmas

/-- C8: allocate_aux returns a dense index node_count + k.  A first
allocation of a name appends it to the aux table, grows the builder by one
empty column and zero-extends the RHS to the new builder dimension; any
later call with the same name returns the very same index and leaves the
context (builder, RHS, aux table) unchanged; distinct names always hold
distinct aux ids, so a device whose aux name derives uniquely from its
instance name owns exactly one aux id.  The two hypotheses are the MNA
assembly invariants relating builder dimension, node count, aux count and
RHS length. -/
theorem C8_allocate_aux {K : Type} [LinearOrderedField K] (s : StampCtx K)
    (name : String) (hb : s.builder.n = s.nodeCount + s.aux.length)
    (hr : s.rhs.length = s.builder.n) :
    (auxLookup s.aux name = none →
      (s.allocateAux name).1 = s.nodeCount + s.aux.length ∧
      (s.allocateAux name).2.aux = s.aux ++ [name] ∧
      (s.allocateAux name).2.builder.colEntries = s.builder.colEntries ++ [[]] ∧
      (s.allocateAux name).2.rhs = s.rhs ++ [0]) ∧
    (∀ id, auxLookup s.aux name = some id →
      s.allocateAux name = (s.nodeCount + id, s)) ∧
    ((s.allocateAux name).2.allocateAux name =
      ((s.allocateAux name).1, (s.allocateAux name).2)) ∧
    (∀ n1 n2 id, auxLookup s.aux n1 = some id → auxLookup s.aux n2 = some id →
      n1 = n2) := by
  have hsome_gen : ∀ (t : StampCtx K) (nm : String) (id : ℕ),
      auxLookup t.aux nm = some id → t.allocateAux nm = (t.nodeCount + id, t) := by
    intro t nm id h
    unfold StampCtx.allocateAux
    rw [h]
  have hfresh : auxLookup s.aux name = none →
      (s.allocateAux name).1 = s.nodeCount + s.aux.length ∧
      (s.allocateAux name).2.aux = s.aux ++ [name] ∧
      (s.allocateAux name).2.builder.colEntries = s.builder.colEntries ++ [[]] ∧
      (s.allocateAux name).2.rhs = s.rhs ++ [0] := by
    intro hnone
    have hgrow : s.builder.n < s.nodeCount + (s.aux ++ [name]).length := by
      simp [hb]
    have hone : s.nodeCount + (s.aux ++ [name]).length - s.builder.n = 1 := by
      rw [hb]
      simp only [List.length_append, List.length_singleton]
      omega
    have hres : (s.builder.resize (s.nodeCount + (s.aux ++ [name]).length)).colEntries
        = s.builder.colEntries ++ [[]] := by
      unfold SparseBuilder.resize
      rw [if_neg (by omega), hone]
      rfl
    have hresn : (s.builder.resize (s.nodeCount + (s.aux ++ [name]).length)).n
        = s.builder.n + 1 := by
      rw [SparseBuilder.n_resize]
      rw [hb]
      simp only [List.length_append, List.length_singleton]
      omega
    have hrhs : listResize s.rhs
        (s.builder.resize (s.nodeCount + (s.aux ++ [name]).length)).n 0
        = s.rhs ++ [0] := by
      rw [hresn]
      unfold listResize
      rw [List.take_of_length_le (by omega), hr]
      simp
    unfold StampCtx.allocateAux
    rw [hnone]
    exact ⟨rfl, rfl, hres, hrhs⟩
  refine ⟨hfresh, fun id hsome => hsome_gen s name id hsome, ?_,
    fun n1 n2 id h1 h2 => auxLookup_inj s.aux n1 n2 id h1 h2⟩
  cases hcase : auxLookup s.aux name with
  | some id =>
    have heq : s.allocateAux name = (s.nodeCount + id, s) := hsome_gen s name id hcase
    rw [heq, hsome_gen s name id hcase]
  | none =>
    obtain ⟨hidx, haux, _hcols, _hrhs⟩ := hfresh hcase
    have hlook : auxLookup (s.allocateAux name).2.aux name = some s.aux.length := by
      rw [haux]
      exact auxLookup_append_self s.aux name hcase
    have hnode : (s.allocateAux name).2.nodeCount = s.nodeCount := by
      unfold StampCtx.allocateAux
      rw [hcase]
    rw [hsome_gen _ name s.aux.length hlook, hnode, ← hidx]

/-- Closed witness for C8: a fresh allocation on a two-node context, and the
index returned by the repeated allocation. -/
theorem C8_witness :
    (StampCtx.allocateAux (K := ℚ) ⟨SparseBuilder.new 2, [0, 0], [], 2, 0, 1⟩
      ("i(v1)")).1 = 2 ∧
    (StampCtx.allocateAux (K := ℚ) ⟨SparseBuilder.new 2, [0, 0], [], 2, 0, 1⟩
      ("i(v1)")).2.rhs = [0, 0, 0] := by
  have h := C8_allocate_aux (K := ℚ) ⟨SparseBuilder.new 2, [0, 0], [], 2, 0, 1⟩
    ("i(v1)") (by simp [SparseBuilder.n_new]) (by simp [SparseBuilder.n_new])
  have hf := h.1 (by simp [auxLookup])
  refine ⟨by simpa using hf.1, by simpa using hf.2.2.2⟩

section FlattenSlice

variable {α : Type}

/-- Running entry counts of a list of columns, mirroring the nnz counter of
finalize (ap before the cast to i64). -/
def lensScan (L : List (List α)) : List ℕ :=
  L.scanl (fun nnz col => nnz + col.length) 0

/-- Entries of column j of a compressed-column output: the ai (or ax) segment
between ap j and ap (j+1). -/
def csSlice {β : Type} (ap : List ℤ) (arr : List β) (j : ℕ) : List β :=
  (arr.drop (ap.getD j 0).toNat).take ((ap.getD (j + 1) 0).toNat - (ap.getD j 0).toNat)

theorem scanl_len_shift (L : List (List α)) (a : ℕ) :
    L.scanl (fun nnz col => nnz + col.length) a =
      (lensScan L).map (a + ·) := by
  induction L generalizing a with
  | nil => simp [lensScan, List.scanl]
  | cons c rest ih =>
    rw [lensScan, List.scanl, List.scanl, List.map_cons, Nat.add_zero]
    refine congrArg (a :: ·) ?_
    rw [ih (a + c.length), ih (0 + c.length), List.map_map]
    have hf : ((fun x => a + x) ∘ fun x => 0 + c.length + x) =
        (fun x => a + c.length + x) := by
      funext x
      simp [Function.comp]
      omega
    rw [hf]

theorem lensScan_cons (c : List α) (rest : List (List α)) :
    lensScan (c :: rest) = 0 :: (lensScan rest).map (c.length + ·) := by
  rw [lensScan, List.scanl]
  rw [show (0 + c.length) = c.length by omega, scanl_len_shift]

theorem lensScan_length (L : List (List α)) :
    (lensScan L).length = L.length + 1 := by
  simp [lensScan, List.length_scanl]

theorem lensScan_getD_map (L : List (List α)) (f : ℕ → ℕ) (j : ℕ)
    (hj : j < (lensScan L).length) :
    ((lensScan L).map f).getD j 0 = f ((lensScan L).getD j 0) := by
  rw [List.getD_eq_getElem?_getD, List.getElem?_map,
    List.getElem?_eq_getElem hj]
  rw [List.getD_eq_getElem?_getD, List.getElem?_eq_getElem hj]
  rfl

theorem slice_flatten (L : List (List α)) (j : ℕ) (hj : j < L.length) :
    (L.flatten.drop ((lensScan L).getD j 0)).take
        ((lensScan L).getD (j + 1) 0 - (lensScan L).getD j 0) =
      L.getD j [] := by
  induction L generalizing j with
  | nil => simp at hj
  | cons c rest ih =>
    rw [lensScan_cons]
    cases j with
    | zero =>
      have h0 : (lensScan rest).getD 0 0 = 0 := by
        cases rest <;> simp [lensScan_cons, lensScan, List.scanl]
      have hlen : 0 < (lensScan rest).length := by
        rw [lensScan_length]
        omega
      have h1 : ((0 : ℕ) :: (lensScan rest).map (c.length + ·)).getD 1 0 = c.length := by
        simp only [List.getD_cons_succ]
        rw [lensScan_getD_map rest _ 0 hlen, h0]
        omega
      rw [h1]
      simp only [List.getD_cons_zero, List.flatten_cons, List.drop_zero,
        Nat.sub_zero, List.getD_cons_zero]
      rw [List.take_left]
    | succ j =>
      have hj' : j < rest.length := by
        simpa using hj
      have hjl : j < (lensScan rest).length := by
        rw [lensScan_length]
        omega
      have hjl1 : j + 1 < (lensScan rest).length := by
        rw [lensScan_length]
        omega
      simp only [List.getD_cons_succ, List.flatten_cons]
      rw [lensScan_getD_map rest _ j hjl, lensScan_getD_map rest _ (j + 1) hjl1]
      rw [List.drop_append ((lensScan rest).getD j 0)]
      rw [show c.length + (lensScan rest).getD (j + 1) 0 -
          (c.length + (lensScan rest).getD j 0) =
        (lensScan rest).getD (j + 1) 0 - (lensScan rest).getD j 0 by omega]
      exact ih j hj'

theorem lensScan_map_of_length (L : List (List α)) {β : Type}
    (g : List α → List β) (hg : ∀ c, (g c).length = c.length) :
    lensScan (L.map g) = lensScan L := by
  induction L with
  | nil => rfl
  | cons c rest ih =>
    rw [List.map_cons, lensScan_cons, lensScan_cons, ih, hg]

end FlattenSlice

section FinalizeLemmas

variable {K : Type}

theorem SparseBuilder.finalize_ap (b : SparseBuilder K) :
    b.finalize.1 = (lensScan (b.colEntries.map sortCol)).map (fun k => (k : ℤ)) :=
  rfl

theorem SparseBuilder.finalize_ai (b : SparseBuilder K) :
    b.finalize.2.1 =
      ((b.colEntries.map sortCol).map
        (fun col => col.map (fun e => (e.1 : ℤ)))).flatten :=
  rfl

theorem SparseBuilder.finalize_ax (b : SparseBuilder K) :
    b.finalize.2.2 =
      ((b.colEntries.map sortCol).map (fun col => col.map (fun e => e.2))).flatten :=
  rfl

theorem getD_map_intCast (l : List ℕ) (j : ℕ) :
    (l.map (fun k => (k : ℤ))).getD j 0 = (l.getD j 0 : ℤ) := by
  induction l generalizing j with
  | nil => simp
  | cons hd tl ih =>
    cases j with
    | zero => simp
    | succ j => simpa using ih j

theorem finalize_ap_getD (b : SparseBuilder K) (j : ℕ) :
    (b.finalize.1.getD j 0).toNat = (lensScan (b.colEntries.map sortCol)).getD j 0 := by
  rw [SparseBuilder.finalize_ap, getD_map_intCast]
  simp

/-- The ai segment of column j of the finalize output is exactly the sorted
column, keeping every duplicate row. -/
theorem finalize_slice_ai (b : SparseBuilder K) (j : ℕ) (hj : j < b.n) :
    csSlice b.finalize.1 b.finalize.2.1 j =
      (sortCol (b.colAt j)).map (fun e => (e.1 : ℤ)) := by
  unfold csSlice
  rw [finalize_ap_getD b j, finalize_ap_getD b (j + 1),
    SparseBuilder.finalize_ai]
  have hrows : lensScan ((b.colEntries.map sortCol).map
      (fun col => col.map (fun e => (e.1 : ℤ)))) =
      lensScan (b.colEntries.map sortCol) := by
    exact lensScan_map_of_length _ _ (fun c => List.length_map c _)
  rw [← hrows]
  have hjlen : j < ((b.colEntries.map sortCol).map
      (fun col => col.map (fun e => (e.1 : ℤ)))).length := by
    simpa [SparseBuilder.n] using hj
  rw [slice_flatten _ j hjlen]
  rw [List.getD_eq_getElem?_getD, List.getElem?_map, List.getElem?_map]
  have hjn : j < b.colEntries.length := hj
  rw [List.getElem?_eq_getElem hjn]
  simp [SparseBuilder.colAt, List.getD_eq_getElem?_getD,
    List.getElem?_eq_getElem hjn]

/-- The ax segment of column j of the finalize output: the values of the
sorted column, duplicates preserved. -/
theorem finalize_slice_ax (b : SparseBuilder K) (j : ℕ) (hj : j < b.n) :
    csSlice b.finalize.1 b.finalize.2.2 j =
      (sortCol (b.colAt j)).map (fun e => e.2) := by
  unfold csSlice
  rw [finalize_ap_getD b j, finalize_ap_getD b (j + 1),
    SparseBuilder.finalize_ax]
  have hrows : lensScan ((b.colEntries.map sortCol).map
      (fun col => col.map (fun e => e.2))) =
      lensScan (b.colEntries.map sortCol) := by
    exact lensScan_map_of_length _ _ (fun c => List.length_map c _)
  rw [← hrows]
  have hjlen : j < ((b.colEntries.map sortCol).map
      (fun col => col.map (fun e => e.2))).length := by
    simpa [SparseBuilder.n] using hj
  rw [slice_flatten _ j hjlen]
  rw [List.getD_eq_getElem?_getD, List.getElem?_map, List.getElem?_map]
  have hjn : j < b.colEntries.length := hj
  rw [List.getElem?_eq_getElem hjn]
  simp [SparseBuilder.colAt, List.getD_eq_getElem?_getD,
    List.getElem?_eq_getElem hjn]

end FinalizeLemmas

/-- Property claimed by C1 for finalize output: no column segment of ai holds
the same row twice. -/
def noDupRowsPerColumn {K : Type} (b : SparseBuilder K) : Prop :=
  ∀ j < b.n, (csSlice b.finalize.1 b.finalize.2.1 j).Nodup

instance {K : Type} (b : SparseBuilder K) : Decidable (noDupRowsPerColumn b) :=
  inferInstanceAs (Decidable (∀ j < b.n, (csSlice b.finalize.1 b.finalize.2.1 j).Nodup))

/-- Builder with two inserts at the same (row, col) position. -/
def c1Builder : SparseBuilder ℚ :=
  ((SparseBuilder.new 1).insert 0 0 1).insert 0 0 2

/-- C1 counterexample: after insert(0,0,1.0) and insert(0,0,2.0), finalize
emits ap = [0, 2], ai = [0, 0]: column 0 carries row 0 twice, the values are
not summed into a single compressed entry, refuting the claimed coalescing. -/
theorem C1_counterexample :
    c1Builder.finalize.1 = [0, 2] ∧
    csSlice c1Builder.finalize.1 c1Builder.finalize.2.1 0 = [0, 0] ∧
    ¬ noDupRowsPerColumn c1Builder := by
  refine ⟨?_, ?_, ?_⟩ <;> decide

/-- C1 amended: finalize sorts each column segment by row ascending, but
duplicate (row, col) entries are preserved, each insert contributing its own
compressed entry (the emitted column is a permutation of the inserted column
entries; nothing is summed).  The solver is left to sum duplicates, as the
data-model section of the spec states. -/
theorem C1_finalize_sorted_dup {K : Type} [LinearOrderedField K]
    (b : SparseBuilder K) (j : ℕ) (hj : j < b.n) :
    csSlice b.finalize.1 b.finalize.2.1 j =
      (sortCol (b.colAt j)).map (fun e => (e.1 : ℤ)) ∧
    csSlice b.finalize.1 b.finalize.2.2 j =
      (sortCol (b.colAt j)).map (fun e => e.2) ∧
    List.Sorted (· ≤ ·) (csSlice b.finalize.1 b.finalize.2.1 j) ∧
    (sortCol (b.colAt j)).Perm (b.colAt j) := by
  refine ⟨finalize_slice_ai b j hj, finalize_slice_ax b j hj, ?_, ?_⟩
  · rw [finalize_slice_ai b j hj]
    have hs : List.Sorted rowLe (sortCol (b.colAt j)) :=
      List.sorted_insertionSort rowLe (b.colAt j)
    rw [List.Sorted, List.pairwise_map]
    exact hs.imp (fun h => by exact_mod_cast h)
  · exact List.perm_insertionSort rowLe (b.colAt j)

/-- Closed witness for the amended C1 on a two-entry builder. -/
theorem C1_witness :
    csSlice c1Builder.finalize.1 c1Builder.finalize.2.2 0 = [1, 2] ∧
    List.Sorted (· ≤ ·) (csSlice c1Builder.finalize.1 c1Builder.finalize.2.1 0) := by
  have h := C1_finalize_sorted_dup c1Builder 0 (by decide)
  refine ⟨?_, h.2.2.1⟩
  rw [h.2.1]
  decide

section Sweep

variable {K : Type} [LinearOrderedField K] [FloorRing K]

/-- Signed step of the DC sweep grid (engine.rs run_dc_sweep_result): step
magnitude from the requested step, sign from the direction of stop relative
to start. -/
def sweepStepSize (start stop step : K) : K :=
  if start ≤ stop then |step| else -|step|

/-- Number of generated grid points: floor of the swept range over the step
magnitude, plus one. -/
def sweepNPoints (start stop step : K) : ℕ :=
  (⌊|(stop - start) / sweepStepSize start stop step|⌋).toNat + 1

/-- The generated points start + i * step_size. -/
def sweepBase (start stop step : K) : List K :=
  (List.range (sweepNPoints start stop step)).map
    (fun i : ℕ => start + (i : K) * sweepStepSize start stop step)

/-- Embeds the sweep-grid computation of Engine::run_dc_sweep_result
(engine.rs): a single point for an (almost) zero step; otherwise the
generated points, with the exact stop appended only under the three guards
of the code (last point more than 1e-12 away from stop, fewer than 10000
points, and more than half a step away from stop). -/
def sweepValues (start stop step : K) : List K :=
  if |sweepStepSize start stop step| < 1 / 10 ^ 15 then [start]
  else
    match (sweepBase start stop step).getLast? with
    | none => sweepBase start stop step
    | some last =>
      if 1 / 10 ^ 12 < |last - stop| ∧ (sweepBase start stop step).length < 10000 ∧
          1 / 2 < |last - stop| / |sweepStepSize start stop step| then
        sweepBase start stop step ++ [stop]
      else sweepBase start stop step

/-- Monotonicity in the direction of the sign of step, as claimed. -/
def sweepMonotoneByStepSign (start stop step : K) : Prop :=
  (0 < step → (sweepValues start stop step).Pairwise (· < ·)) ∧
  (step < 0 → (sweepValues start stop step).Pairwise (· > ·))

theorem sweepValues_eval_cex :
    sweepValues (0 : ℚ) 1 (-(1 / 2)) = [0, 1 / 2, 1] := by
  have hss : sweepStepSize (0 : ℚ) 1 (-(1 / 2)) = 1 / 2 := by
    unfold sweepStepSize
    rw [if_pos (by norm_num)]
    norm_num
  have hnp : sweepNPoints (0 : ℚ) 1 (-(1 / 2)) = 3 := by
    unfold sweepNPoints
    rw [hss]
    have h2 : ⌊|((1 : ℚ) - 0) / (1 / 2)|⌋ = 2 := by norm_num
    rw [h2]
    rfl
  have hbase : sweepBase (0 : ℚ) 1 (-(1 / 2)) = [0, 1 / 2, 1] := by
    unfold sweepBase
    rw [hnp, hss]
    rw [show List.range 3 = [0, 1, 2] from rfl]
    simp only [List.map_cons, List.map_nil]
    norm_num
  unfold sweepValues
  rw [hss, hbase]
  rw [if_neg (by rw [abs_of_nonneg (by norm_num : (0 : ℚ) ≤ 1 / 2)]; norm_num)]
  split
  · rfl
  · next lastv heq =>
    rw [show ([(0 : ℚ), 1 / 2, 1]).getLast? = some 1 from rfl] at heq
    injection heq with heq
    rw [← heq]
    rw [if_neg (by norm_num)]

/-- C4 counterexample: with start = 0, stop = 1, step = -0.5 the code takes
the step direction from stop - start, producing the strictly increasing grid
[0, 0.5, 1]; the claim says a negative step gives a strictly decreasing
grid. -/
theorem C4_counterexample :
    sweepValues (0 : ℚ) 1 (-(1 / 2)) = [0, 1 / 2, 1] ∧
    ¬ sweepMonotoneByStepSign (0 : ℚ) 1 (-(1 / 2)) := by
  refine ⟨sweepValues_eval_cex, fun h => ?_⟩
  have hdec := h.2 (by norm_num)
  rw [sweepValues_eval_cex] at hdec
  have h01 : (0 : ℚ) > 1 / 2 := (List.pairwise_cons.mp hdec).1 (1 / 2) (by simp)
  norm_num at h01

theorem pairwise_lt_vals (start s : K) (n : ℕ) (hs : 0 < s) :
    ((List.range n).map (fun i : ℕ => start + (i : K) * s)).Pairwise (· < ·) := by
  rw [List.pairwise_map]
  refine (List.pairwise_lt_range n).imp ?_
  intro i j hij
  have hc : (i : K) < (j : K) := by exact_mod_cast hij
  have := mul_lt_mul_of_pos_right hc hs
  linarith

theorem pairwise_gt_vals (start s : K) (n : ℕ) (hs : s < 0) :
    ((List.range n).map (fun i : ℕ => start + (i : K) * s)).Pairwise (· > ·) := by
  rw [List.pairwise_map]
  refine (List.pairwise_lt_range n).imp ?_
  intro i j hij
  have hc : (i : K) < (j : K) := by exact_mod_cast hij
  have := mul_lt_mul_of_neg_right hc hs
  simp only [gt_iff_lt]
  linarith

theorem vals_getLast (start s : K) (m : ℕ) :
    ((List.range (m + 1)).map (fun i : ℕ => start + (i : K) * s)).getLast? =
      some (start + (m : K) * s) := by
  rw [List.range_succ, List.map_append, List.map_cons, List.map_nil,
    List.getLast?_concat]

theorem sweepBase_getLast (start stop step : K) :
    (sweepBase start stop step).getLast? =
      some (start + ((sweepNPoints start stop step - 1 : ℕ) : K) *
        sweepStepSize start stop step) := by
  unfold sweepBase
  obtain ⟨m, hm⟩ : ∃ m, sweepNPoints start stop step = m + 1 :=
    ⟨(⌊|(stop - start) / sweepStepSize start stop step|⌋).toNat, rfl⟩
  rw [hm]
  rw [vals_getLast]
  simp

/-- Elements of the generated grid are bounded by the last one when the step
is positive. -/
theorem sweepBase_le_last (start s : K) (m : ℕ) (hs : 0 ≤ s) (x : K)
    (hx : x ∈ (List.range (m + 1)).map (fun i : ℕ => start + (i : K) * s)) :
    x ≤ start + (m : K) * s := by
  rw [List.mem_map] at hx
  obtain ⟨i, hi, hxe⟩ := hx
  rw [List.mem_range] at hi
  have hile : (i : K) ≤ (m : K) := by
    have hl : i ≤ m := by omega
    exact_mod_cast hl
  have hmul := mul_le_mul_of_nonneg_right hile hs
  rw [← hxe]
  linarith

theorem sweepBase_ge_last (start s : K) (m : ℕ) (hs : s ≤ 0) (x : K)
    (hx : x ∈ (List.range (m + 1)).map (fun i : ℕ => start + (i : K) * s)) :
    start + (m : K) * s ≤ x := by
  rw [List.mem_map] at hx
  obtain ⟨i, hi, hxe⟩ := hx
  rw [List.mem_range] at hi
  have hile : (i : K) ≤ (m : K) := by
    have hl : i ≤ m := by omega
    exact_mod_cast hl
  have hmul := mul_le_mul_of_nonpos_right hile hs
  rw [← hxe]
  linarith

/-- C4 amended: the direction of the generated sweep grid follows the sign of
stop - start (not the sign of step): with stop above start the grid is
strictly increasing, with stop below start strictly decreasing, and with
stop = start (or an almost-zero step) it is the single point start.  The
exact stop is appended only under the guards of the code (more than 1e-12
and more than half a step away from the last generated point, and fewer
than 10000 points). -/
theorem C4_sweep_monotone (start stop step : K) :
    (start < stop → (sweepValues start stop step).Pairwise (· < ·)) ∧
    (stop < start → (sweepValues start stop step).Pairwise (· > ·)) ∧
    (stop = start → sweepValues start stop step = [start]) := by
  refine ⟨?_, ?_, ?_⟩
  · -- increasing direction
    intro hlt
    have hss : sweepStepSize start stop step = |step| := by
      unfold sweepStepSize
      rw [if_pos (le_of_lt hlt)]
    unfold sweepValues
    by_cases hz : |sweepStepSize start stop step| < 1 / 10 ^ 15
    · rw [if_pos hz]
      exact List.pairwise_singleton _ _
    · rw [if_neg hz]
      have hs : 0 < |step| := by
        rcases lt_or_eq_of_le (abs_nonneg step) with h | h
        · exact h
        · exfalso
          apply hz
          rw [hss, ← h]
          simp
      obtain ⟨m, hm⟩ : ∃ m, sweepNPoints start stop step = m + 1 :=
        ⟨(⌊|(stop - start) / sweepStepSize start stop step|⌋).toNat, rfl⟩
      have hbase : (sweepBase start stop step).Pairwise (· < ·) := by
        unfold sweepBase
        rw [hss]
        exact pairwise_lt_vals start |step| _ hs
      rw [sweepBase_getLast]
      split
      · exact hbase
      · next lastv heq =>
        injection heq with heq
        by_cases hguard : 1 / 10 ^ 12 < |lastv - stop| ∧
            (sweepBase start stop step).length < 10000 ∧
            1 / 2 < |lastv - stop| / |sweepStepSize start stop step|
        · rw [if_pos hguard]
          have hmK : ((sweepNPoints start stop step - 1 : ℕ) : K) ≤
              (stop - start) / |step| := by
            have h0 : (0 : K) ≤ (stop - start) / |step| :=
              div_nonneg (by linarith) (le_of_lt hs)
            have habs : |((stop - start) / |step|)| = (stop - start) / |step| :=
              abs_of_nonneg h0
            have htn : ((sweepNPoints start stop step - 1 : ℕ) : ℤ) =
                ⌊|((stop - start) / sweepStepSize start stop step)|⌋ := by
              unfold sweepNPoints
              have hnn : 0 ≤ ⌊|((stop - start) / sweepStepSize start stop step)|⌋ :=
                Int.floor_nonneg.mpr (abs_nonneg _)
              omega
            rw [hss] at htn
            calc ((sweepNPoints start stop step - 1 : ℕ) : K)
                = (((sweepNPoints start stop step - 1 : ℕ) : ℤ) : K) := by norm_cast
              _ = ((⌊|((stop - start) / |step|)|⌋ : ℤ) : K) := by rw [htn]
              _ ≤ |((stop - start) / |step|)| := Int.floor_le _
              _ = (stop - start) / |step| := habs
          have hlast_le : lastv ≤ stop := by
            rw [← heq, hss]
            have := mul_le_mul_of_nonneg_right hmK (le_of_lt hs)
            rw [div_mul_cancel₀ _ (ne_of_gt hs)] at this
            linarith
          have hlast_lt : lastv < stop := by
            rcases lt_or_eq_of_le hlast_le with h | h
            · exact h
            · exfalso
              rw [h] at hguard
              simp only [sub_self, abs_zero] at hguard
              have h12 := hguard.1
              norm_num at h12
          rw [List.pairwise_append]
          refine ⟨hbase, List.pairwise_singleton _ _, ?_⟩
          intro x hx y hy
          rw [List.mem_singleton] at hy
          rw [hy]
          have hb : x ≤ lastv := by
            rw [← heq, hss]
            unfold sweepBase at hx
            rw [hm, hss] at hx
            have hnm : ((sweepNPoints start stop step - 1 : ℕ) : K) = (m : K) := by
              rw [hm]
              norm_num
            rw [hnm]
            exact sweepBase_le_last start |step| m (le_of_lt hs) x hx
          linarith
        · rw [if_neg hguard]
          exact hbase
  · -- decreasing direction
    intro hlt
    have hss : sweepStepSize start stop step = -|step| := by
      unfold sweepStepSize
      rw [if_neg (by linarith)]
    unfold sweepValues
    by_cases hz : |sweepStepSize start stop step| < 1 / 10 ^ 15
    · rw [if_pos hz]
      exact List.pairwise_singleton _ _
    · rw [if_neg hz]
      have hs : 0 < |step| := by
        rcases lt_or_eq_of_le (abs_nonneg step) with h | h
        · exact h
        · exfalso
          apply hz
          rw [hss, ← h]
          simp
      have hsneg : sweepStepSize start stop step < 0 := by
        rw [hss]
        linarith
      obtain ⟨m, hm⟩ : ∃ m, sweepNPoints start stop step = m + 1 :=
        ⟨(⌊|(stop - start) / sweepStepSize start stop step|⌋).toNat, rfl⟩
      have hbase : (sweepBase start stop step).Pairwise (· > ·) := by
        unfold sweepBase
        exact pairwise_gt_vals start _ _ hsneg
      rw [sweepBase_getLast]
      split
      · exact hbase
      · next lastv heq =>
        injection heq with heq
        by_cases hguard : 1 / 10 ^ 12 < |lastv - stop| ∧
            (sweepBase start stop step).length < 10000 ∧
            1 / 2 < |lastv - stop| / |sweepStepSize start stop step|
        · rw [if_pos hguard]
          have hmK : ((sweepNPoints start stop step - 1 : ℕ) : K) ≤
              (stop - start) / (-|step|) := by
            have h0 : (0 : K) ≤ (stop - start) / (-|step|) := by
              rw [← neg_div_neg_eq]
              exact div_nonneg (by linarith) (by linarith)
            have habs : |((stop - start) / (-|step|))| = (stop - start) / (-|step|) :=
              abs_of_nonneg h0
            have htn : ((sweepNPoints start stop step - 1 : ℕ) : ℤ) =
                ⌊|((stop - start) / sweepStepSize start stop step)|⌋ := by
              unfold sweepNPoints
              have hnn : 0 ≤ ⌊|((stop - start) / sweepStepSize start stop step)|⌋ :=
                Int.floor_nonneg.mpr (abs_nonneg _)
              omega
            rw [hss] at htn
            calc ((sweepNPoints start stop step - 1 : ℕ) : K)
                = (((sweepNPoints start stop step - 1 : ℕ) : ℤ) : K) := by norm_cast
              _ = ((⌊|((stop - start) / (-|step|))|⌋ : ℤ) : K) := by rw [htn]
              _ ≤ |((stop - start) / (-|step|))| := Int.floor_le _
              _ = (stop - start) / (-|step|) := habs
          have hprod : (stop - start) / (-|step|) * (-|step|) = stop - start := by
            field_simp
          have hlast_ge : stop ≤ lastv := by
            rw [← heq, hss]
            have := mul_le_mul_of_nonpos_right hmK (by linarith : -|step| ≤ 0)
            rw [hprod] at this
            linarith
          have hlast_gt : stop < lastv := by
            rcases lt_or_eq_of_le hlast_ge with h | h
            · exact h
            · exfalso
              rw [← h] at hguard
              simp only [sub_self, abs_zero] at hguard
              have h12 := hguard.1
              norm_num at h12
          rw [List.pairwise_append]
          refine ⟨hbase, List.pairwise_singleton _ _, ?_⟩
          intro x hx y hy
          rw [List.mem_singleton] at hy
          rw [hy]
          have hb : lastv ≤ x := by
            rw [← heq, hss]
            unfold sweepBase at hx
            rw [hm, hss] at hx
            have hnm : ((sweepNPoints start stop step - 1 : ℕ) : K) = (m : K) := by
              rw [hm]
              norm_num
            rw [hnm]
            exact sweepBase_ge_last start (-|step|) m (by linarith) x hx
          simp only [gt_iff_lt]
          linarith
        · rw [if_neg hguard]
          exact hbase
  · -- equal endpoints
    intro heq
    rw [heq]
    unfold sweepValues
    by_cases hz : |sweepStepSize start start step| < 1 / 10 ^ 15
    · rw [if_pos hz]
    · rw [if_neg hz]
      have hnp : sweepNPoints start start step = 1 := by
        unfold sweepNPoints
        simp
      have hbase : sweepBase start start step = [start] := by
        unfold sweepBase
        rw [hnp]
        simp [List.range_succ]
      rw [hbase]
      split
      · rfl
      · next lastv heq2 =>
        rw [show ([start]).getLast? = some start from rfl] at heq2
        injection heq2 with heq2
        rw [← heq2]
        rw [if_neg (by simp)]

/-- Closed witness for the amended C4 at an increasing, a decreasing and a
degenerate sweep. -/
theorem C4_witness :
    (sweepValues (0 : ℚ) 2 1).Pairwise (· < ·) ∧
    (sweepValues (2 : ℚ) 0 1).Pairwise (· > ·) ∧
    sweepValues (3 : ℚ) 3 1 = [3] := by
  exact ⟨(C4_sweep_monotone 0 2 1).1 (by norm_num),
    (C4_sweep_monotone 2 0 1).2.1 (by norm_num),
    (C4_sweep_monotone 3 3 1).2.2 rfl⟩

end Sweep

section TranLoop

variable {K : Type} [LinearOrderedField K]

/-- Embeds result_store.rs RunStatus. -/
inductive RunStatus
  | Converged
  | MaxIters
  | Failed
deriving DecidableEq

/-- Embeds analysis.rs TimeStepConfig. -/
structure TimeStepConfig (K : Type) where
  tstep : K
  tstop : K
  tstart : K
  tmax : K
  minDt : K
  maxDt : K
  absTol : K
  relTol : K
deriving DecidableEq

/-- Embeds analysis.rs TimeStepState. -/
structure TimeStepState (K : Type) where
  time : K
  step : ℕ
  dt : K
  lastDt : K
  accepted : Bool
deriving DecidableEq

/-- Embeds analysis.rs ErrorEstimate. -/
structure ErrorEstimate (K : Type) where
  errorNorm : K
  accept : Bool
deriving DecidableEq

/-- Embeds analysis.rs estimate_error_weighted: the weighted maximum ratio
over the zipped prev and next vectors, skipping entries with a zero
denominator; a step is accepted when the ratio stays at or below one. -/
def estimateErrorWeighted (prev next : List K) (absTol relTol : K) :
    ErrorEstimate K :=
  let maxR := (prev.zip next).foldl
    (fun acc pn =>
      let denom := absTol + relTol * max |pn.1| |pn.2|
      if denom = 0 then acc
      else max acc (|pn.2 - pn.1| / denom)) 0
  ⟨maxR, maxR ≤ 1⟩

/-- Modelled from the spec: the Newton result record of newton.rs
(run_newton_with_stepping), which is not under src/.  The transient loop
body of engine.rs reads only the convergence flag and the final iterate, so
the outcome is passed to the body as this record. -/
structure TranNewtonOutcome (K : Type) where
  converged : Bool
  xNew : List K
deriving DecidableEq

/-- Embeds the body of the time-stepping loop of Engine::run_tran_result
(engine.rs): on non-convergence the step size is halved down to min_dt, the
final status is set to Failed and the loop continues (the simulation time is
left unchanged, so the while condition re-enters); on convergence the
weighted error estimate decides between accepting (advance time, grow dt by
1.5x up to max_dt) and rejecting (halve dt down to min_dt).  Waveform
recording and transient-state carry are not modelled; they do not affect
the step-control state. -/
def tranLoopBody (cfg : TimeStepConfig K) (out : TranNewtonOutcome K)
    (x : List K) (st : TimeStepState K) (finalStatus : RunStatus) :
    List K × TimeStepState K × RunStatus :=
  if !out.converged then
    (x, { st with dt := max (st.dt * (1 / 2)) cfg.minDt }, RunStatus.Failed)
  else
    let est := estimateErrorWeighted x out.xNew cfg.absTol cfg.relTol
    if est.accept then
      (out.xNew,
        { time := st.time + st.dt
          step := st.step + 1
          dt := if st.dt < cfg.maxDt then min (st.dt * (3 / 2)) cfg.maxDt else st.dt
          lastDt := st.dt
          accepted := true },
        finalStatus)
    else
      (x, { st with accepted := false, dt := max (st.dt * (1 / 2)) cfg.minDt },
        finalStatus)

/-- The while loop of run_tran_result, driven by a stream of Newton outcomes
and bounded by fuel; the loop condition is time < tstop, re-checked after
every body run exactly as in the code. -/
def runTranLoop (cfg : TimeStepConfig K) (outs : ℕ → TranNewtonOutcome K) :
    ℕ → ℕ → List K → TimeStepState K → RunStatus →
      List K × TimeStepState K × RunStatus
  | 0, _, x, st, fs => (x, st, fs)
  | fuel + 1, k, x, st, fs =>
    if st.time < cfg.tstop then
      let r := tranLoopBody cfg (outs k) x st fs
      runTranLoop cfg outs fuel (k + 1) r.1 r.2.1 r.2.2
    else (x, st, fs)

/-- The failure handling C2 claims: Failed is set only when dt is already at
the floor. -/
def tranFailureClaim (K : Type) [LinearOrderedField K] : Prop :=
  ∀ (cfg : TimeStepConfig K) (out : TranNewtonOutcome K) (x : List K)
    (st : TimeStepState K) (fs : RunStatus),
    out.converged = false → st.dt ≠ cfg.minDt →
      (tranLoopBody cfg out x st fs).2.2 ≠ RunStatus.Failed

/-- The hardcoded transient configuration of run_tran_result. -/
def tranCfg : TimeStepConfig ℚ :=
  { tstep := 1 / 10 ^ 6, tstop := 1 / 10 ^ 5, tstart := 0, tmax := 1 / 10 ^ 5
    minDt := 1 / 10 ^ 9, maxDt := 1 / 10 ^ 4
    absTol := 1 / 10 ^ 9, relTol := 1 / 10 ^ 6 }

/-- The initial step state of run_tran_result. -/
def tranSt0 : TimeStepState ℚ :=
  { time := 0, step := 0, dt := 1 / 10 ^ 6, lastDt := 1 / 10 ^ 6, accepted := true }

/-- C2 counterexample: at the very first trial step (dt = tstep, far above
min_dt) a failed Newton solve already sets the run status to Failed, and the
loop does not exit: the time is unchanged and still below tstop, so the
while loop takes another trial step.  The claim said Failed is set only once
dt has reached min_dt, and that the loop then exits. -/
theorem C2_counterexample :
    (tranLoopBody tranCfg ⟨false, []⟩ [0] tranSt0 RunStatus.Converged).2.2 =
      RunStatus.Failed ∧
    tranSt0.dt ≠ tranCfg.minDt ∧
    (tranLoopBody tranCfg ⟨false, []⟩ [0] tranSt0 RunStatus.Converged).2.1.time =
      tranSt0.time ∧
    tranSt0.time < tranCfg.tstop ∧
    ¬ tranFailureClaim ℚ := by
  refine ⟨rfl, by norm_num [tranSt0, tranCfg], rfl, by norm_num [tranSt0, tranCfg],
    fun h => ?_⟩
  have := h tranCfg ⟨false, []⟩ [0] tranSt0 RunStatus.Converged rfl
    (by norm_num [tranSt0, tranCfg])
  exact this rfl

/-- C2 amended: whenever the Newton solve of a trial step fails to converge,
the step size is updated to max(dt/2, min_dt), the run status is set to
Failed regardless of whether dt had reached min_dt, and the loop is not
exited: the simulation time is unchanged, so the stepping loop retries
(terminating only once time reaches tstop). -/
theorem C2_tran_nonconvergence (cfg : TimeStepConfig K)
    (out : TranNewtonOutcome K) (x : List K) (st : TimeStepState K)
    (fs : RunStatus) (h : out.converged = false) :
    tranLoopBody cfg out x st fs =
      (x, { st with dt := max (st.dt * (1 / 2)) cfg.minDt }, RunStatus.Failed) ∧
    (tranLoopBody cfg out x st fs).2.1.time = st.time := by
  constructor
  · unfold tranLoopBody
    rw [h]
    rfl
  · unfold tranLoopBody
    rw [h]
    rfl

/-- Closed witness for the amended C2 at the concrete engine configuration. -/
theorem C2_witness :
    tranLoopBody tranCfg ⟨false, [1]⟩ [0] tranSt0 RunStatus.Converged =
      ([0], { tranSt0 with dt := max (tranSt0.dt * (1 / 2)) tranCfg.minDt },
        RunStatus.Failed) :=
  (C2_tran_nonconvergence tranCfg ⟨false, [1]⟩ [0] tranSt0 RunStatus.Converged rfl).1

end TranLoop

section SweepLoop

variable {K : Type} [LinearOrderedField K] [FloorRing K]

/-- Modelled from the spec: the exit reason of newton.rs (Converged,
MaxIters, SolverFailure), which is not under src/; engine.rs matches on
exactly these three constructors. -/
inductive NewtonExitReason
  | Converged
  | MaxIters
  | SolverFailure
deriving DecidableEq

/-- Modelled from the spec: the outcome of one run_newton_with_stepping call
inside the DC sweep loop: the exit reason, the iteration count and the final
iterate left in x. -/
structure SweepOutcome (K : Type) where
  reason : NewtonExitReason
  iters : ℕ
  xNew : List K
deriving DecidableEq

/-- The failure message attached by run_dc_sweep_result, as a tagged value:
the code formats the failing sweep value into one of the two strings
(Failed to converge at sweep point v / Solver failure at sweep point v). -/
inductive SweepMessage (K : Type)
  | failedToConverge (v : K)
  | solverFailure (v : K)
deriving DecidableEq

/-- Embeds the per-sample loop of Engine::run_dc_sweep_result (engine.rs):
for each sweep value the Newton outcome is consumed; a converged sample
appends its solution and continues, a MaxIters sample stops the loop with
status MaxIters and a message carrying the failing sweep value, a solver
failure stops with status Failed; iterations always accumulate.  The
mutation of the swept source value only feeds the Newton solve and is part
of the outcome stream. -/
def runSweepLoop (outs : ℕ → SweepOutcome K) :
    List K → ℕ → List (List K) → ℕ →
      RunStatus × Option (SweepMessage K) × List (List K) × ℕ
  | [], _, sols, iters => (RunStatus.Converged, none, sols, iters)
  | v :: rest, k, sols, iters =>
    match (outs k).reason with
    | NewtonExitReason.Converged =>
        runSweepLoop outs rest (k + 1) (sols ++ [(outs k).xNew])
          (iters + (outs k).iters)
    | NewtonExitReason.MaxIters =>
        (RunStatus.MaxIters, some (SweepMessage.failedToConverge v), sols,
          iters + (outs k).iters)
    | NewtonExitReason.SolverFailure =>
        (RunStatus.Failed, some (SweepMessage.solverFailure v), sols,
          iters + (outs k).iters)

/-- Embeds run_dc_sweep_result after the source instance has been found: the
grid is generated and the per-sample loop is run from an empty solution
list. -/
def runDcSweep (outs : ℕ → SweepOutcome K) (start stop step : K) :
    RunStatus × Option (SweepMessage K) × List (List K) × ℕ :=
  runSweepLoop outs (sweepValues start stop step) 0 [] 0

theorem runSweepLoop_spec (outs : ℕ → SweepOutcome K) (values : List K)
    (k : ℕ) (sols : List (List K)) (iters : ℕ) (j : ℕ)
    (hj : j < values.length)
    (hconv : ∀ i < j, (outs (k + i)).reason = NewtonExitReason.Converged)
    (hfail : (outs (k + j)).reason ≠ NewtonExitReason.Converged) :
    (runSweepLoop outs values k sols iters).2.2.1 =
      sols ++ (List.range j).map (fun i => (outs (k + i)).xNew) ∧
    (runSweepLoop outs values k sols iters).1 =
      (if (outs (k + j)).reason = NewtonExitReason.MaxIters then RunStatus.MaxIters
        else RunStatus.Failed) ∧
    (runSweepLoop outs values k sols iters).2.1 =
      some (if (outs (k + j)).reason = NewtonExitReason.MaxIters then
          SweepMessage.failedToConverge (values.getD j 0)
        else SweepMessage.solverFailure (values.getD j 0)) := by
  induction values generalizing k sols iters j with
  | nil => simp at hj
  | cons v rest ih =>
    cases j with
    | zero =>
      have hf0 : (outs k).reason ≠ NewtonExitReason.Converged := by
        simpa using hfail
      unfold runSweepLoop
      cases hr : (outs k).reason with
      | Converged => exact absurd hr hf0
      | MaxIters =>
        refine ⟨by simp, ?_, ?_⟩ <;> simp [hr]
      | SolverFailure =>
        refine ⟨by simp, ?_, ?_⟩ <;> simp [hr]
    | succ j =>
      have h0 : (outs k).reason = NewtonExitReason.Converged := by
        have := hconv 0 (by omega)
        rwa [Nat.add_zero] at this
      unfold runSweepLoop
      rw [h0]
      have hrec := ih (k + 1) (sols ++ [(outs k).xNew]) (iters + (outs k).iters) j
        (by simpa using hj)
        (fun i hi => by
          have := hconv (i + 1) (by omega)
          rwa [show k + (i + 1) = k + 1 + i by omega] at this)
        (by
          have := hfail
          rwa [show k + (j + 1) = k + 1 + j by omega] at this)
      refine ⟨?_, ?_, ?_⟩
      · rw [hrec.1]
        rw [List.range_succ_eq_map, List.map_cons, List.map_map]
        rw [List.append_assoc]
        refine congrArg _ ?_
        simp only [List.singleton_append, Nat.add_zero]
        refine congrArg _ ?_
        refine List.map_congr_left ?_
        intro i _
        simp [Function.comp]
        rw [show k + 1 + i = k + (i + 1) by omega]
      · rw [hrec.2.1]
        rw [show k + 1 + j = k + (j + 1) by omega]
      · rw [hrec.2.2]
        rw [show k + 1 + j = k + (j + 1) by omega]
        rfl

/-- C7: if the sample at index j of the sweep grid is the first whose Newton
solve does not converge (MaxIters) or whose linear solve fails, the sweep
stops there: the collected solutions are exactly the solutions of the j
earlier samples, in grid order; the status is MaxIters or Failed according
to the failure kind; and the message carries the failing sweep value. -/
theorem C7_sweep_partial (outs : ℕ → SweepOutcome K) (start stop step : K)
    (j : ℕ) (hj : j < (sweepValues start stop step).length)
    (hconv : ∀ i < j, (outs i).reason = NewtonExitReason.Converged)
    (hfail : (outs j).reason ≠ NewtonExitReason.Converged) :
    (runDcSweep outs start stop step).2.2.1 =
      (List.range j).map (fun i => (outs i).xNew) ∧
    (runDcSweep outs start stop step).1 =
      (if (outs j).reason = NewtonExitReason.MaxIters then RunStatus.MaxIters
        else RunStatus.Failed) ∧
    (runDcSweep outs start stop step).2.1 =
      some (if (outs j).reason = NewtonExitReason.MaxIters then
          SweepMessage.failedToConverge ((sweepValues start stop step).getD j 0)
        else SweepMessage.solverFailure ((sweepValues start stop step).getD j 0)) := by
  have h := runSweepLoop_spec outs (sweepValues start stop step) 0 [] 0 j hj
    (fun i hi => by simpa using hconv i hi) (by simpa using hfail)
  refine ⟨?_, ?_, ?_⟩
  · rw [show runDcSweep outs start stop step =
      runSweepLoop outs (sweepValues start stop step) 0 [] 0 from rfl, h.1]
    simp
  · rw [show runDcSweep outs start stop step =
      runSweepLoop outs (sweepValues start stop step) 0 [] 0 from rfl, h.2.1]
    simp
  · rw [show runDcSweep outs start stop step =
      runSweepLoop outs (sweepValues start stop step) 0 [] 0 from rfl, h.2.2]
    simp

/-- Closed witness for C7: a three-point sweep whose second sample hits
MaxIters keeps exactly the first solution and reports the failing value. -/
theorem C7_witness :
    (runDcSweep (K := ℚ)
        (fun k => if k = 0 then ⟨NewtonExitReason.Converged, 3, [5]⟩
          else ⟨NewtonExitReason.MaxIters, 100, [7]⟩) 0 2 1).2.2.1 = [[5]] ∧
    (runDcSweep (K := ℚ)
        (fun k => if k = 0 then ⟨NewtonExitReason.Converged, 3, [5]⟩
          else ⟨NewtonExitReason.MaxIters, 100, [7]⟩) 0 2 1).1 =
      RunStatus.MaxIters := by
  have hlen : (sweepValues (0 : ℚ) 2 1).length = 3 := by
    have hss : sweepStepSize (0 : ℚ) 2 1 = 1 := by
      unfold sweepStepSize
      rw [if_pos (by norm_num)]
      norm_num
    have hnp : sweepNPoints (0 : ℚ) 2 1 = 3 := by
      unfold sweepNPoints
      rw [hss]
      rw [show ⌊|((2 : ℚ) - 0) / 1|⌋ = 2 by norm_num]
      rfl
    have hbase : sweepBase (0 : ℚ) 2 1 = [0, 1, 2] := by
      unfold sweepBase
      rw [hnp, hss]
      rw [show List.range 3 = [0, 1, 2] from rfl]
      simp only [List.map_cons, List.map_nil]
      norm_num
    unfold sweepValues
    rw [hss, hbase]
    rw [if_neg (by norm_num)]
    split
    · rfl
    · next lastv heq =>
      rw [show ([(0 : ℚ), 1, 2]).getLast? = some 2 from rfl] at heq
      injection heq with heq
      rw [← heq]
      rw [if_neg (by norm_num)]
      rfl
  have h := C7_sweep_partial (K := ℚ)
    (fun k => if k = 0 then ⟨NewtonExitReason.Converged, 3, [5]⟩
      else ⟨NewtonExitReason.MaxIters, 100, [7]⟩) 0 2 1 1
    (by rw [hlen]; omega)
    (fun i hi => by
      have : i = 0 := by omega
      rw [this]
      rfl)
    (by decide)
  refine ⟨?_, ?_⟩
  · rw [h.1]
    rfl
  · rw [h.2.1]
    rfl

end SweepLoop

section Devices

variable {K : Type} [LinearOrderedField K]

/-- Embeds circuit.rs DeviceKind (the file is not under src/, but the
constructor set is fixed by the match in stamp.rs and by the data model of
the spec). -/
inductive DeviceKind
  | R
  | C
  | L
  | V
  | I
  | D
  | M
  | E
  | G
  | F
  | H
  | X
deriving DecidableEq

/-- Embeds stamp.rs StampError. -/
inductive StampError
  | MissingValue
  | InvalidNodes
deriving DecidableEq

/-- Embeds circuit.rs Instance as consumed by stamp.rs: the value field
models the already-parsed numeric value (the Rust field is an optional
string put through parse_number_with_suffix; a string that fails to parse is
a missing value), and params models the numeric parameter map as read by
param_value. -/
structure Instance (K : Type) where
  name : String
  kind : DeviceKind
  nodes : List ℕ
  value : Option K
  control : Option String
  params : List (String × K)

/-- Embeds stamp.rs param_value: first key present in the map wins. -/
def paramValue (params : List (String × K)) (keys : List String) : Option K :=
  keys.findSome? (fun key => (params.find? (fun p => p.1 == key)).map (·.2))

/-- The four-entry conductance pattern Add {(a,a,+g),(b,b,+g),(a,b,-g),
(b,a,-g)} shared by R, D, M, L-dc stamps. -/
def stamp4 (s : StampCtx K) (a b : ℕ) (g : K) : StampCtx K :=
  (((s.add a a g).add b b g).add a b (-g)).add b a (-g)

/-- The transconductance pattern Add {(op,ctrl,+g),(op,on,-g),(on,ctrl,-g),
(on,on,+g)} used by the gm and gmbs blocks of the MOSFET stamp. -/
def transBlock (s : StampCtx K) (op ctrl onn : ℕ) (g : K) : StampCtx K :=
  (((s.add op ctrl g).add op onn (-g)).add onn ctrl (-g)).add onn onn g

/-- The RHS pair RHS(a,-v), RHS(b,+v) shared by I, D, M, C-tran stamps. -/
def rhsPair (s : StampCtx K) (a b : ℕ) (v : K) : StampCtx K :=
  (s.addRhs a (-v)).addRhs b v

/-- Embeds stamp.rs stamp_resistor. -/
def stampResistor (s : StampCtx K) (inst : Instance K) :
    Except StampError (StampCtx K) :=
  if inst.nodes.length ≠ 2 then .error .InvalidNodes
  else match inst.value with
    | none => .error .MissingValue
    | some value =>
      .ok (stamp4 s (inst.nodes.getD 0 0) (inst.nodes.getD 1 0) (1 / value))

/-- Embeds stamp.rs stamp_current. -/
def stampCurrent (s : StampCtx K) (inst : Instance K) :
    Except StampError (StampCtx K) :=
  if inst.nodes.length ≠ 2 then .error .InvalidNodes
  else match inst.value with
    | none => .error .MissingValue
    | some value0 =>
      let value := value0 * s.sourceScale
      .ok (rhsPair s (inst.nodes.getD 0 0) (inst.nodes.getD 1 0) value)

/-- Embeds stamp.rs stamp_voltage. -/
def stampVoltage (s : StampCtx K) (inst : Instance K) :
    Except StampError (StampCtx K) :=
  if inst.nodes.length ≠ 2 then .error .InvalidNodes
  else match inst.value with
    | none => .error .MissingValue
    | some value0 =>
      let value := value0 * s.sourceScale
      let a := inst.nodes.getD 0 0
      let b := inst.nodes.getD 1 0
      let r := s.allocateAux inst.name
      let k := r.1
      .ok (((((r.2.add a k 1).add b k (-1)).add k a 1).add k b (-1)).addRhs k value)

/-- Embeds stamp.rs stamp_diode: with a bias vector the exponential junction
is linearized (conductance clipped below by the effective gmin), without one
only the gmin conductance pattern is stamped.  The f64 exponential is a
parameter rexp. -/
def stampDiode (rexp : K → K) (s : StampCtx K) (inst : Instance K)
    (x : Option (List K)) : Except StampError (StampCtx K) :=
  if inst.nodes.length ≠ 2 then .error .InvalidNodes
  else
    let a := inst.nodes.getD 0 0
    let b := inst.nodes.getD 1 0
    let gmin := if 0 < s.gmin then s.gmin else 1 / 10 ^ 12
    let isat := (paramValue inst.params [("is")]).getD (1 / 10 ^ 14)
    let emission := (paramValue inst.params [("n"), ("nj")]).getD 1
    let vt := (2585 / 100000) * emission
    match x with
    | some x =>
      let va := x.getD a 0
      let vb := x.getD b 0
      let vd := va - vb
      let expVd := rexp (vd / vt)
      let idCur := isat * (expVd - 1)
      let gd := (isat / vt) * expVd
      let g := max gd gmin
      let ieq := idCur - gd * vd
      .ok (rhsPair (stamp4 s a b g) a b ieq)
    | none => .ok (stamp4 s a b gmin)

/-- Outputs of the BSIM evaluator consumed by the MOSFET stamp
(sim-devices BsimOutput restricted to the fields stamp_mos reads). -/
structure BsimOutQ (K : Type) where
  gm : K
  gds : K
  gmbs : K
  ieq : K

/-- Outputs of the BSIM4 evaluator consumed by the level-54 path of the
MOSFET stamp. -/
structure Bsim4OutQ (K : Type) where
  base : BsimOutQ K
  isub : K
  gsub : K
  igs : K
  gigs : K
  igd : K
  gigd : K

/-- The two model evaluators the MOSFET stamp can call (evaluate_mos and
evaluate_mos_bsim4 of sim-devices, applied to the instance parameters and
the four terminal voltages); the stamp only consumes their outputs, so they
are parameters of the embedding. -/
structure MosEval (K : Type) where
  ev4 : Instance K → K → K → K → K → Bsim4OutQ K
  ev : Instance K → K → K → K → K → BsimOutQ K

/-- Embeds stamp.rs stamp_mos: without a bias only the gmin channel pattern;
with a bias the gds pattern, the gm block, the gmbs block when
|gmbs| > 0.01*gmin, and the equivalent current pair; on the level-54 path
additionally the substrate and the two gate-tunneling blocks under their
guards.  The Rust level is read as a float and cast to u32, so the level-54
test is 54 <= level < 55. -/
def stampMos (me : MosEval K) (s : StampCtx K) (inst : Instance K)
    (x : Option (List K)) : Except StampError (StampCtx K) :=
  if inst.nodes.length < 4 then .error .InvalidNodes
  else
    let drain := inst.nodes.getD 0 0
    let gate := inst.nodes.getD 1 0
    let source := inst.nodes.getD 2 0
    let bulk := inst.nodes.getD 3 0
    let gmin := if 0 < s.gmin then s.gmin else 1 / 10 ^ 12
    let lv := (paramValue inst.params [("level")]).getD 49
    match x with
    | some x =>
      let vd := x.getD drain 0
      let vg := x.getD gate 0
      let vs := x.getD source 0
      let vb := x.getD bulk 0
      if 54 ≤ lv ∧ lv < 55 then
        let o := me.ev4 inst vd vg vs vb
        let gm := o.base.gm
        let gds := max o.base.gds gmin
        let gmbs := o.base.gmbs
        let ieq := o.base.ieq
        let s1 := stamp4 s drain source gds
        let s2 := transBlock s1 drain gate source gm
        let s3 := if gmin * (1 / 100) < |gmbs| then
            transBlock s2 drain bulk source gmbs
          else s2
        let s4 := rhsPair s3 drain source ieq
        let s5 := if gmin < |o.isub| ∧ gmin * (1 / 100) < o.gsub then
            rhsPair (stamp4 s4 drain bulk o.gsub) drain bulk
              (o.isub - o.gsub * (vd - vb))
          else s4
        let s6 := if gmin < |o.igs| ∧ gmin * (1 / 100) < o.gigs then
            rhsPair (stamp4 s5 gate source o.gigs) gate source
              (o.igs - o.gigs * (vg - vs))
          else s5
        let s7 := if gmin < |o.igd| ∧ gmin * (1 / 100) < o.gigd then
            rhsPair (stamp4 s6 gate drain o.gigd) gate drain
              (o.igd - o.gigd * (vg - vd))
          else s6
        .ok s7
      else
        let o := me.ev inst vd vg vs vb
        let gm := o.gm
        let gds := max o.gds gmin
        let gmbs := o.gmbs
        let ieq := o.ieq
        let s1 := stamp4 s drain source gds
        let s2 := transBlock s1 drain gate source gm
        let s3 := if gmin * (1 / 100) < |gmbs| then
            transBlock s2 drain bulk source gmbs
          else s2
        .ok (rhsPair s3 drain source ieq)
    | none => .ok (stamp4 s drain source gmin)

/-- Embeds stamp.rs stamp_inductor_dc: a large short conductance. -/
def stampInductorDc (s : StampCtx K) (inst : Instance K) :
    Except StampError (StampCtx K) :=
  if inst.nodes.length ≠ 2 then .error .InvalidNodes
  else
    .ok (stamp4 s (inst.nodes.getD 0 0) (inst.nodes.getD 1 0) (10 ^ 9))

/-- Embeds stamp.rs stamp_vcvs. -/
def stampVcvs (s : StampCtx K) (inst : Instance K) :
    Except StampError (StampCtx K) :=
  if inst.nodes.length ≠ 4 then .error .InvalidNodes
  else match inst.value with
    | none => .error .MissingValue
    | some gain =>
      let op := inst.nodes.getD 0 0
      let onn := inst.nodes.getD 1 0
      let ip := inst.nodes.getD 2 0
      let inn := inst.nodes.getD 3 0
      let r := s.allocateAux inst.name
      let k := r.1
      .ok ((((((r.2.add op k 1).add onn k (-1)).add k op 1).add k onn (-1)).add k ip
        (-gain)).add k inn gain)

/-- Embeds stamp.rs stamp_vccs. -/
def stampVccs (s : StampCtx K) (inst : Instance K) :
    Except StampError (StampCtx K) :=
  if inst.nodes.length ≠ 4 then .error .InvalidNodes
  else match inst.value with
    | none => .error .MissingValue
    | some gm =>
      let op := inst.nodes.getD 0 0
      let onn := inst.nodes.getD 1 0
      let ip := inst.nodes.getD 2 0
      let inn := inst.nodes.getD 3 0
      .ok ((((s.add op ip gm).add op inn (-gm)).add onn ip (-gm)).add onn inn gm)

/-- Embeds stamp.rs stamp_cccs: the control lookup happens before any write,
so a missing control leaves the context untouched. -/
def stampCccs (s : StampCtx K) (inst : Instance K) :
    Except StampError (StampCtx K) :=
  if inst.nodes.length ≠ 2 then .error .InvalidNodes
  else match inst.value with
    | none => .error .MissingValue
    | some gain =>
      let op := inst.nodes.getD 0 0
      let onn := inst.nodes.getD 1 0
      match inst.control with
      | none => .error .MissingValue
      | some controlName =>
        match auxLookup s.aux controlName with
        | none => .error .MissingValue
        | some controlAux =>
          let kc := s.nodeCount + controlAux
          .ok ((s.add op kc gain).add onn kc (-gain))

/-- Embeds stamp.rs stamp_ccvs. -/
def stampCcvs (s : StampCtx K) (inst : Instance K) :
    Except StampError (StampCtx K) :=
  if inst.nodes.length ≠ 2 then .error .InvalidNodes
  else match inst.value with
    | none => .error .MissingValue
    | some gain =>
      let op := inst.nodes.getD 0 0
      let onn := inst.nodes.getD 1 0
      match inst.control with
      | none => .error .MissingValue
      | some controlName =>
        match auxLookup s.aux controlName with
        | none => .error .MissingValue
        | some controlAux =>
          let kc := s.nodeCount + controlAux
          let r := s.allocateAux inst.name
          let k := r.1
          .ok (((((r.2.add op k 1).add onn k (-1)).add k op 1).add k onn (-1)).add k kc
            (-gain))

/-- Embeds InstanceStamp::stamp_dc (stamp.rs): dispatch on the device kind;
C is open in DC and X is already expanded, both no-ops. -/
def stampDC (me : MosEval K) (rexp : K → K) (inst : Instance K)
    (x : Option (List K)) (s : StampCtx K) : Except StampError (StampCtx K) :=
  match inst.kind with
  | DeviceKind.R => stampResistor s inst
  | DeviceKind.I => stampCurrent s inst
  | DeviceKind.V => stampVoltage s inst
  | DeviceKind.D => stampDiode rexp s inst x
  | DeviceKind.M => stampMos me s inst x
  | DeviceKind.L => stampInductorDc s inst
  | DeviceKind.C => .ok s
  | DeviceKind.E => stampVcvs s inst
  | DeviceKind.G => stampVccs s inst
  | DeviceKind.F => stampCccs s inst
  | DeviceKind.H => stampCcvs s inst
  | DeviceKind.X => .ok s

/-- The engine discards the stamp result (let _ = ...); every stamp performs
all fallible steps before its first write, so an error leaves the context
unchanged. -/
def applyStampDC (me : MosEval K) (rexp : K → K) (inst : Instance K)
    (x : Option (List K)) (s : StampCtx K) : StampCtx K :=
  match stampDC me rexp inst x s with
  | .ok s' => s'
  | .error _ => s

/-- The fresh MNA context of MnaBuilder::new(N) with the knobs of
context_with. -/
def initCtx (N : ℕ) (gmin srcScale : K) : StampCtx K :=
  ⟨SparseBuilder.new N, List.replicate N 0, [], N, gmin, srcScale⟩

/-- Embeds the assembly closure of Engine::run_dc_result (and of the sweep
and transient DC parts): stamp every instance at the bias x, then pin the
ground diagonal with 1.0. -/
def assembleDc (me : MosEval K) (rexp : K → K) (N gnd : ℕ)
    (insts : List (Instance K)) (x : List K) (gmin srcScale : K) : StampCtx K :=
  let s := insts.foldl (fun s inst => applyStampDC me rexp inst (some x) s)
    (initCtx N gmin srcScale)
  { s with builder := s.builder.insert gnd gnd 1 }

end Devices

section EffectiveMatrix

variable {K : Type} [LinearOrderedField K]

/-- Sum of the values a column holds at row i: the effective matrix entry
the solver sees after duplicates are summed (solver.rs build_dense uses
+=). -/
def colVal (col : List (ℕ × K)) (i : ℕ) : K :=
  ((col.filter (fun e => e.1 == i)).map (fun e => e.2)).sum

/-- Effective matrix entry at (row i, column j). -/
def StampCtx.entryAt (s : StampCtx K) (i j : ℕ) : K :=
  colVal (s.builder.colAt j) i

/-- RHS entry at row i. -/
def StampCtx.rhsAt (s : StampCtx K) (i : ℕ) : K :=
  s.rhs.getD i 0

theorem colVal_append_single (col : List (ℕ × K)) (e : ℕ × K) (i : ℕ) :
    colVal (col ++ [e]) i = colVal col i + (if e.1 = i then e.2 else 0) := by
  unfold colVal
  rw [List.filter_append]
  by_cases h : e.1 = i
  · simp [h]
  · simp [h]

theorem StampCtx.entryAt_add (s : StampCtx K) (i j : ℕ) (v : K) (r c : ℕ) :
    (s.add i j v).entryAt r c =
      s.entryAt r c + (if c = j ∧ j < s.builder.n ∧ r = i then v else 0) := by
  unfold StampCtx.entryAt StampCtx.add
  simp only
  rw [SparseBuilder.colAt_insert]
  by_cases hc : c = j ∧ j < s.builder.n
  · rw [if_pos hc, colVal_append_single]
    by_cases hr : i = r
    · simp [hc, hr]
    · have : ¬ (c = j ∧ j < s.builder.n ∧ r = i) := by tauto
      simp [hr, this]
  · rw [if_neg hc]
    have : ¬ (c = j ∧ j < s.builder.n ∧ r = i) := by tauto
    simp [this]

theorem StampCtx.rhsAt_addRhs (s : StampCtx K) (i : ℕ) (v : K) (r : ℕ) :
    (s.addRhs i v).rhsAt r =
      s.rhsAt r + (if r = i ∧ i < s.rhs.length then v else 0) := by
  unfold StampCtx.rhsAt StampCtx.addRhs
  by_cases hi : i < s.rhs.length
  · rw [if_pos hi]
    simp only
    by_cases hr : r = i
    · subst hr
      rw [List.getD_eq_getElem?_getD, List.getElem?_set_self hi]
      simp [hi]
    · rw [List.getD_eq_getElem?_getD, List.getElem?_set_ne (fun h => hr h.symm),
        ← List.getD_eq_getElem?_getD]
      simp [hr]
  · rw [if_neg hi]
    have : ¬ (r = i ∧ i < s.rhs.length) := by tauto
    simp [this]

theorem StampCtx.add_rhs_eq (s : StampCtx K) (i j : ℕ) (v : K) :
    (s.add i j v).rhs = s.rhs := rfl

theorem StampCtx.add_n_eq (s : StampCtx K) (i j : ℕ) (v : K) :
    (s.add i j v).builder.n = s.builder.n :=
  SparseBuilder.n_insert _ _ _ _

theorem StampCtx.addRhs_builder_eq (s : StampCtx K) (i : ℕ) (v : K) :
    (s.addRhs i v).builder = s.builder := by
  unfold StampCtx.addRhs
  split <;> rfl

theorem StampCtx.addRhs_rhs_length (s : StampCtx K) (i : ℕ) (v : K) :
    (s.addRhs i v).rhs.length = s.rhs.length := by
  unfold StampCtx.addRhs
  split
  · simp
  · rfl

theorem StampCtx.entryAt_addRhs (s : StampCtx K) (i : ℕ) (v : K) (r c : ℕ) :
    (s.addRhs i v).entryAt r c = s.entryAt r c := by
  unfold StampCtx.entryAt
  rw [StampCtx.addRhs_builder_eq]

end EffectiveMatrix

section StampPatternLemmas

variable {K : Type} [LinearOrderedField K]

theorem stamp4_rhs (s : StampCtx K) (a b : ℕ) (g : K) :
    (stamp4 s a b g).rhs = s.rhs := rfl

theorem stamp4_aux (s : StampCtx K) (a b : ℕ) (g : K) :
    (stamp4 s a b g).aux = s.aux := rfl

theorem stamp4_n (s : StampCtx K) (a b : ℕ) (g : K) :
    (stamp4 s a b g).builder.n = s.builder.n := by
  unfold stamp4
  rw [StampCtx.add_n_eq, StampCtx.add_n_eq, StampCtx.add_n_eq, StampCtx.add_n_eq]

theorem stamp4_entryAt (s : StampCtx K) (a b : ℕ) (g : K)
    (ha : a < s.builder.n) (hb : b < s.builder.n) (r c : ℕ) :
    (stamp4 s a b g).entryAt r c = s.entryAt r c +
      ((if r = a ∧ c = a then g else 0) + (if r = b ∧ c = b then g else 0) +
       (if r = a ∧ c = b then -g else 0) + (if r = b ∧ c = a then -g else 0)) := by
  unfold stamp4
  rw [StampCtx.entryAt_add, StampCtx.entryAt_add, StampCtx.entryAt_add,
    StampCtx.entryAt_add]
  simp only [StampCtx.add_n_eq]
  by_cases hab : a = b
  · subst hab
    by_cases h1 : r = a <;> by_cases h3 : c = a <;>
      simp [h1, h3, ha]
  · have hba : ¬ b = a := fun h => hab h.symm
    by_cases h1 : r = a <;> by_cases h2 : r = b <;> by_cases h3 : c = a <;>
      by_cases h4 : c = b <;>
      simp [h1, h2, h3, h4, ha, hb, hab, hba]

theorem rhsPair_rhs_length (s : StampCtx K) (a b : ℕ) (v : K) :
    (rhsPair s a b v).rhs.length = s.rhs.length := by
  unfold rhsPair
  rw [StampCtx.addRhs_rhs_length, StampCtx.addRhs_rhs_length]

theorem rhsPair_builder (s : StampCtx K) (a b : ℕ) (v : K) :
    (rhsPair s a b v).builder = s.builder := by
  unfold rhsPair
  rw [StampCtx.addRhs_builder_eq, StampCtx.addRhs_builder_eq]

theorem rhsPair_aux (s : StampCtx K) (a b : ℕ) (v : K) :
    (rhsPair s a b v).aux = s.aux := by
  unfold rhsPair StampCtx.addRhs
  split <;> split <;> rfl

theorem rhsPair_entryAt (s : StampCtx K) (a b : ℕ) (v : K) (r c : ℕ) :
    (rhsPair s a b v).entryAt r c = s.entryAt r c := by
  unfold rhsPair
  rw [StampCtx.entryAt_addRhs, StampCtx.entryAt_addRhs]

theorem rhsPair_rhsAt (s : StampCtx K) (a b : ℕ) (v : K)
    (ha : a < s.rhs.length) (hb : b < s.rhs.length) (r : ℕ) :
    (rhsPair s a b v).rhsAt r = s.rhsAt r +
      ((if r = a then -v else 0) + (if r = b then v else 0)) := by
  unfold rhsPair
  rw [StampCtx.rhsAt_addRhs, StampCtx.rhsAt_addRhs]
  rw [StampCtx.addRhs_rhs_length]
  by_cases hab : a = b
  · subst hab
    by_cases h1 : r = a <;> simp [h1, ha]
  · have hba : ¬ b = a := fun h => hab h.symm
    by_cases h1 : r = a <;> by_cases h2 : r = b <;>
      simp [h1, h2, ha, hb, hab, hba]

end StampPatternLemmas

/-- Effective gmin of a stamp context (stamp.rs: the context knob when
positive, 1e-12 otherwise). -/
def diodeGmin {K : Type} [LinearOrderedField K] (s : StampCtx K) : K :=
  if 0 < s.gmin then s.gmin else 1 / 10 ^ 12

/-- Saturation current parameter of a diode instance, default 1e-14. -/
def diodeIs {K : Type} [LinearOrderedField K] (inst : Instance K) : K :=
  (paramValue inst.params [("is")]).getD (1 / 10 ^ 14)

/-- Emission coefficient (key n or nj), default 1. -/
def diodeN {K : Type} [LinearOrderedField K] (inst : Instance K) : K :=
  (paramValue inst.params [("n"), ("nj")]).getD 1

/-- Thermal voltage scaled by the emission coefficient: 0.02585 n. -/
def diodeVt {K : Type} [LinearOrderedField K] (inst : Instance K) : K :=
  (2585 / 100000) * diodeN inst

/-- Junction voltage vd = x[a] - x[b] (out-of-range reads as 0). -/
def diodeVd {K : Type} [LinearOrderedField K] (x : List K) (a b : ℕ) : K :=
  x.getD a 0 - x.getD b 0

/-- Diode current id = Is (e^(vd/(n Vt)) - 1). -/
def diodeId {K : Type} [LinearOrderedField K] (rexp : K → K) (inst : Instance K)
    (x : List K) (a b : ℕ) : K :=
  diodeIs inst * (rexp (diodeVd x a b / diodeVt inst) - 1)

/-- Diode conductance gd = Is/(n Vt) e^(vd/(n Vt)). -/
def diodeGd {K : Type} [LinearOrderedField K] (rexp : K → K) (inst : Instance K)
    (x : List K) (a b : ℕ) : K :=
  (diodeIs inst / diodeVt inst) * rexp (diodeVd x a b / diodeVt inst)

/-- Diode equivalent current ieq = id - gd vd. -/
def diodeIeq {K : Type} [LinearOrderedField K] (rexp : K → K) (inst : Instance K)
    (x : List K) (a b : ℕ) : K :=
  diodeId rexp inst x a b - diodeGd rexp inst x a b * diodeVd x a b

/-- C5: the DC diode stamp.  Without a bias vector it adds only the gmin
conductance pattern between its nodes a and b (gmin being the context knob
when positive, 1e-12 otherwise) and leaves the RHS untouched.  With a bias
x it computes vd = x[a]-x[b], id = Is(e^(vd/(n Vt))-1) and
gd = Is/(n Vt) e^(vd/(n Vt)) with Vt = 0.02585, stamps the resistor pattern
with g = max(gd, gmin), and accumulates ieq = id - gd vd as RHS(a,-ieq),
RHS(b,+ieq); Is defaults to 1e-14 and the emission coefficient (key n or
nj) to 1.  All deltas are on the effective (duplicate-summed) matrix and
RHS; the aux table is untouched. -/
theorem C5_stamp_diode {K : Type} [LinearOrderedField K] (rexp : K → K)
    (s : StampCtx K) (inst : Instance K) (a b : ℕ) (x : List K)
    (hn : inst.nodes = [a, b])
    (ha : a < s.builder.n) (hb : b < s.builder.n)
    (har : a < s.rhs.length) (hbr : b < s.rhs.length) :
    (∀ s', stampDiode rexp s inst (some x) = Except.ok s' →
       (∀ r c, s'.entryAt r c = s.entryAt r c +
         ((if r = a ∧ c = a then max (diodeGd rexp inst x a b) (diodeGmin s) else 0) +
          (if r = b ∧ c = b then max (diodeGd rexp inst x a b) (diodeGmin s) else 0) +
          (if r = a ∧ c = b then -max (diodeGd rexp inst x a b) (diodeGmin s) else 0) +
          (if r = b ∧ c = a then -max (diodeGd rexp inst x a b) (diodeGmin s) else 0))) ∧
       (∀ r, s'.rhsAt r = s.rhsAt r +
         ((if r = a then -diodeIeq rexp inst x a b else 0) +
          (if r = b then diodeIeq rexp inst x a b else 0))) ∧
       s'.aux = s.aux) ∧
    (∀ s0, stampDiode rexp s inst none = Except.ok s0 →
       (∀ r c, s0.entryAt r c = s.entryAt r c +
         ((if r = a ∧ c = a then diodeGmin s else 0) +
          (if r = b ∧ c = b then diodeGmin s else 0) +
          (if r = a ∧ c = b then -diodeGmin s else 0) +
          (if r = b ∧ c = a then -diodeGmin s else 0))) ∧
       (∀ r, s0.rhsAt r = s.rhsAt r) ∧
       s0.aux = s.aux) := by
  constructor
  · intro s' h
    unfold stampDiode at h
    rw [hn] at h
    rw [if_neg (by simp)] at h
    simp only [List.getD_cons_zero, List.getD_cons_succ] at h
    injection h with h
    rw [← h]
    refine ⟨fun r c => ?_, fun r => ?_, ?_⟩
    · rw [rhsPair_entryAt, stamp4_entryAt s a b _ ha hb]
      simp only [diodeGd, diodeGmin, diodeIs, diodeVt, diodeN, diodeVd]
    · rw [rhsPair_rhsAt _ a b _ (by rw [stamp4_rhs]; exact har)
        (by rw [stamp4_rhs]; exact hbr)]
      show s.rhsAt r + _ = _
      simp only [diodeIeq, diodeId, diodeGd, diodeIs, diodeVt, diodeN, diodeVd]
    · rw [rhsPair_aux, stamp4_aux]
  · intro s0 h
    unfold stampDiode at h
    rw [hn] at h
    rw [if_neg (by simp)] at h
    simp only [List.getD_cons_zero, List.getD_cons_succ] at h
    injection h with h
    rw [← h]
    refine ⟨fun r c => ?_, fun r => rfl, rfl⟩
    rw [stamp4_entryAt s a b _ ha hb]
    simp only [diodeGmin]

/-- A concrete diode instance for the witness. -/
def dInst : Instance ℚ := ⟨("d1"), DeviceKind.D, [0, 1], none, none, []⟩

/-- A concrete two-node context for the witness. -/
def dCtx : StampCtx ℚ := ⟨SparseBuilder.new 2, [0, 0], [], 2, 1, 1⟩

/-- Closed witness for C5: the RHS accumulated at node 0 by the biased diode
stamp is exactly minus the equivalent current. -/
theorem C5_witness :
    (rhsPair (stamp4 dCtx 0 1
        (max (diodeGd (fun q => 1 + q) dInst [2, 0] 0 1) (diodeGmin dCtx))) 0 1
        (diodeIeq (fun q => 1 + q) dInst [2, 0] 0 1)).rhsAt 0 =
      -diodeIeq (fun q => 1 + q) dInst [2, 0] 0 1 := by
  have h := C5_stamp_diode (fun q => 1 + q) dCtx dInst 0 1 [2, 0] rfl
    (by rw [show dCtx.builder = SparseBuilder.new 2 from rfl, SparseBuilder.n_new]
        omega)
    (by rw [show dCtx.builder = SparseBuilder.new 2 from rfl, SparseBuilder.n_new]
        omega)
    (by simp [dCtx]) (by simp [dCtx])
  have hok : stampDiode (fun q => (1 : ℚ) + q) dCtx dInst (some [2, 0]) =
      Except.ok (rhsPair (stamp4 dCtx 0 1
        (max (diodeGd (fun q => 1 + q) dInst [2, 0] 0 1) (diodeGmin dCtx))) 0 1
        (diodeIeq (fun q => 1 + q) dInst [2, 0] 0 1)) := by
    unfold stampDiode diodeGd diodeIeq diodeId diodeIs diodeVt diodeN diodeVd
      diodeGmin dInst
    rfl
  have h2 := (h.1 _ hok).2.1 0
  rw [h2]
  have h0 : dCtx.rhsAt 0 = 0 := by simp [dCtx, StampCtx.rhsAt]
  rw [h0]
  norm_num

section Invariant

variable {K : Type} [LinearOrderedField K]

/-- Sum of a column's values over node rows (rows below N). -/
def nodeColSum (N : ℕ) (col : List (ℕ × K)) : K :=
  ((col.filter (fun e => decide (e.1 < N))).map (fun e => e.2)).sum

/-- Sum of the RHS over node rows. -/
def rhsNodeSum (N : ℕ) (rhs : List K) : K :=
  ∑ i ∈ Finset.range N, rhs.getD i 0

/-- Invariant of the MNA context during DC assembly: the builder spans the
node rows plus one column and row per aux variable, the RHS matches the
builder dimension, every column is balanced over the node rows (KCL), the
RHS is balanced over the node rows, and every stored row index is within
the dimension. -/
structure MnaInv (N : ℕ) (s : StampCtx K) : Prop where
  node_eq : s.nodeCount = N
  n_ge : N ≤ s.builder.n
  n_eq : s.builder.n = N + s.aux.length
  rhs_len : s.rhs.length = s.builder.n
  col_sum : ∀ j, nodeColSum N (s.builder.colAt j) = 0
  rhs_sum : rhsNodeSum N s.rhs = 0
  rows_lt : ∀ j, ∀ e ∈ s.builder.colAt j, e.1 < s.builder.n

theorem nodeColSum_append_single (N : ℕ) (col : List (ℕ × K)) (e : ℕ × K) :
    nodeColSum N (col ++ [e]) =
      nodeColSum N col + (if e.1 < N then e.2 else 0) := by
  unfold nodeColSum
  rw [List.filter_append]
  by_cases h : e.1 < N
  · simp [h]
  · simp [h]

theorem nodeColSum_add (N : ℕ) (s : StampCtx K) (i j : ℕ) (v : K) (c : ℕ) :
    nodeColSum N ((s.add i j v).builder.colAt c) =
      nodeColSum N (s.builder.colAt c) +
        (if c = j ∧ j < s.builder.n ∧ i < N then v else 0) := by
  show nodeColSum N ((s.builder.insert j i v).colAt c) = _
  rw [SparseBuilder.colAt_insert]
  by_cases hc : c = j ∧ j < s.builder.n
  · rw [if_pos hc, nodeColSum_append_single]
    by_cases hi : i < N
    · simp [hc, hi]
    · simp [hc, hi]
  · rw [if_neg hc]
    have : ¬ (c = j ∧ j < s.builder.n ∧ i < N) := by tauto
    simp [this]

theorem rows_lt_add (N : ℕ) (s : StampCtx K) (i j : ℕ) (v : K)
    (hrows : ∀ c, ∀ e ∈ s.builder.colAt c, e.1 < s.builder.n)
    (hi : i < s.builder.n) :
    ∀ c, ∀ e ∈ (s.add i j v).builder.colAt c, e.1 < (s.add i j v).builder.n := by
  intro c e he
  rw [StampCtx.add_n_eq]
  have hc := SparseBuilder.colAt_insert s.builder j i v c
  rw [show (s.add i j v).builder = s.builder.insert j i v from rfl, hc] at he
  by_cases hcj : c = j ∧ j < s.builder.n
  · rw [if_pos hcj] at he
    rw [List.mem_append] at he
    rcases he with he | he
    · exact hrows c e he
    · rw [List.mem_singleton] at he
      rw [he]
      exact hi
  · rw [if_neg hcj] at he
    exact hrows c e he

theorem rhsNodeSum_set (N : ℕ) (rhs : List K) (i : ℕ) (w : K)
    (hi : i < rhs.length) :
    rhsNodeSum N (rhs.set i w) =
      rhsNodeSum N rhs + (if i < N then w - rhs.getD i 0 else 0) := by
  unfold rhsNodeSum
  have hterm : ∀ k, (rhs.set i w).getD k 0 =
      rhs.getD k 0 + (if k = i then w - rhs.getD i 0 else 0) := by
    intro k
    by_cases hk : k = i
    · subst hk
      rw [List.getD_eq_getElem?_getD, List.getElem?_set_self hi]
      simp
    · rw [List.getD_eq_getElem?_getD, List.getElem?_set_ne (fun h => hk h.symm),
        ← List.getD_eq_getElem?_getD]
      simp [hk]
  calc ∑ k ∈ Finset.range N, (rhs.set i w).getD k 0
      = ∑ k ∈ Finset.range N,
          (rhs.getD k 0 + (if k = i then w - rhs.getD i 0 else 0)) := by
        exact Finset.sum_congr rfl (fun k _ => hterm k)
    _ = (∑ k ∈ Finset.range N, rhs.getD k 0) +
          ∑ k ∈ Finset.range N, (if k = i then w - rhs.getD i 0 else 0) := by
        rw [Finset.sum_add_distrib]
    _ = (∑ k ∈ Finset.range N, rhs.getD k 0) +
          (if i < N then w - rhs.getD i 0 else 0) := by
        rw [Finset.sum_ite_eq' (Finset.range N) i (fun _ => w - rhs.getD i 0)]
        simp
  
theorem rhsNodeSum_addRhs (N : ℕ) (s : StampCtx K) (i : ℕ) (v : K) :
    rhsNodeSum N (s.addRhs i v).rhs =
      rhsNodeSum N s.rhs + (if i < N ∧ i < s.rhs.length then v else 0) := by
  unfold StampCtx.addRhs
  by_cases hi : i < s.rhs.length
  · rw [if_pos hi]
    show rhsNodeSum N (s.rhs.set i (s.rhs.getD i 0 + v)) = _
    rw [rhsNodeSum_set N s.rhs i _ hi]
    by_cases hN : i < N
    · simp [hN, hi]
    · simp [hN]
  · rw [if_neg hi]
    have : ¬ (i < N ∧ i < s.rhs.length) := by tauto
    simp [this]

theorem MnaInv.init (N : ℕ) (gmin srcScale : K) :
    MnaInv N (initCtx N gmin srcScale) := by
  refine ⟨rfl, ?_, ?_, ?_, ?_, ?_, ?_⟩
  · rw [show (initCtx N gmin srcScale : StampCtx K).builder =
      SparseBuilder.new N from rfl, SparseBuilder.n_new]
  · rw [show (initCtx N gmin srcScale : StampCtx K).builder =
      SparseBuilder.new N from rfl, SparseBuilder.n_new]
    rfl
  · show (List.replicate N (0 : K)).length = (SparseBuilder.new (K := K) N).n
    rw [SparseBuilder.n_new, List.length_replicate]
  · intro j
    show nodeColSum N ((SparseBuilder.new (K := K) N).colAt j) = 0
    unfold SparseBuilder.new SparseBuilder.colAt
    by_cases hj : j < N
    · rw [List.getD_eq_getElem?_getD, List.getElem?_replicate]
      simp [hj, nodeColSum]
    · rw [List.getD_eq_getElem?_getD, List.getElem?_replicate]
      simp [hj, nodeColSum]
  · show rhsNodeSum N (List.replicate N (0 : K)) = 0
    unfold rhsNodeSum
    refine Finset.sum_eq_zero (fun i hi => ?_)
    rw [List.getD_eq_getElem?_getD, List.getElem?_replicate]
    rw [Finset.mem_range] at hi
    simp [hi]
  · intro j e he
    have hcol : (initCtx N gmin srcScale : StampCtx K).builder.colAt j = [] := by
      show (SparseBuilder.new (K := K) N).colAt j = []
      unfold SparseBuilder.new SparseBuilder.colAt
      rw [List.getD_eq_getElem?_getD, List.getElem?_replicate]
      split <;> rfl
    rw [hcol] at he
    simp at he

end Invariant

section PatternInv

variable {K : Type} [LinearOrderedField K]

theorem StampCtx.add_nodeCount (s : StampCtx K) (i j : ℕ) (v : K) :
    (s.add i j v).nodeCount = s.nodeCount := rfl

theorem StampCtx.add_aux (s : StampCtx K) (i j : ℕ) (v : K) :
    (s.add i j v).aux = s.aux := rfl

theorem StampCtx.addRhs_nodeCount (s : StampCtx K) (i : ℕ) (v : K) :
    (s.addRhs i v).nodeCount = s.nodeCount := by
  unfold StampCtx.addRhs
  split <;> rfl

theorem StampCtx.addRhs_aux (s : StampCtx K) (i : ℕ) (v : K) :
    (s.addRhs i v).aux = s.aux := by
  unfold StampCtx.addRhs
  split <;> rfl

theorem stamp4_inv {N : ℕ} {s : StampCtx K} (hInv : MnaInv N s) (a b : ℕ)
    (g : K) (haN : a < N) (hbN : b < N) : MnaInv N (stamp4 s a b g) := by
  have han : a < s.builder.n := lt_of_lt_of_le haN hInv.n_ge
  have hbn : b < s.builder.n := lt_of_lt_of_le hbN hInv.n_ge
  refine ⟨hInv.node_eq, ?_, ?_, ?_, ?_, ?_, ?_⟩
  · rw [stamp4_n]
    exact hInv.n_ge
  · rw [stamp4_n, stamp4_aux]
    exact hInv.n_eq
  · rw [stamp4_n, stamp4_rhs]
    exact hInv.rhs_len
  · intro j
    unfold stamp4
    rw [nodeColSum_add, nodeColSum_add, nodeColSum_add, nodeColSum_add]
    simp only [StampCtx.add_n_eq]
    have hbase : ∀ c, nodeColSum N (s.builder.colAt c) = 0 := hInv.col_sum
    by_cases h1 : j = a <;> by_cases h2 : j = b <;> by_cases hab : a = b <;>
      simp [h1, h2, hab, eq_comm, han, hbn, haN, hbN, hbase] <;> first | ring | omega
  · rw [show (stamp4 s a b g).rhs = s.rhs from stamp4_rhs s a b g]
    exact hInv.rhs_sum
  · unfold stamp4
    have r1 := rows_lt_add N s a a g hInv.rows_lt han
    have r2 := rows_lt_add N (s.add a a g) b b g r1
      (by rw [StampCtx.add_n_eq]; exact hbn)
    have r3 := rows_lt_add N ((s.add a a g).add b b g) a b (-g) r2
      (by rw [StampCtx.add_n_eq, StampCtx.add_n_eq]; exact han)
    exact rows_lt_add N (((s.add a a g).add b b g).add a b (-g)) b a (-g) r3
      (by rw [StampCtx.add_n_eq, StampCtx.add_n_eq, StampCtx.add_n_eq]; exact hbn)

theorem transBlock_inv {N : ℕ} {s : StampCtx K} (hInv : MnaInv N s)
    (op ctrl onn : ℕ) (g : K) (hopN : op < N) (honN : onn < N) :
    MnaInv N (transBlock s op ctrl onn g) := by
  have hopn : op < s.builder.n := lt_of_lt_of_le hopN hInv.n_ge
  have honn : onn < s.builder.n := lt_of_lt_of_le honN hInv.n_ge
  have htn : (transBlock s op ctrl onn g).builder.n = s.builder.n := by
    unfold transBlock
    rw [StampCtx.add_n_eq, StampCtx.add_n_eq, StampCtx.add_n_eq, StampCtx.add_n_eq]
  have htr : (transBlock s op ctrl onn g).rhs = s.rhs := rfl
  have hta : (transBlock s op ctrl onn g).aux = s.aux := rfl
  refine ⟨hInv.node_eq, ?_, ?_, ?_, ?_, ?_, ?_⟩
  · rw [htn]
    exact hInv.n_ge
  · rw [htn, hta]
    exact hInv.n_eq
  · rw [htn, htr]
    exact hInv.rhs_len
  · intro j
    unfold transBlock
    rw [nodeColSum_add, nodeColSum_add, nodeColSum_add, nodeColSum_add]
    simp only [StampCtx.add_n_eq]
    have hbase : ∀ c, nodeColSum N (s.builder.colAt c) = 0 := hInv.col_sum
    by_cases h1 : j = ctrl <;> by_cases h2 : j = onn <;>
      by_cases h3 : ctrl < s.builder.n <;> by_cases hco : ctrl = onn <;>
      simp [h1, h2, h3, hco, eq_comm, hopN, honN, honn, hbase] <;> first | ring | omega
  · rw [htr]
    exact hInv.rhs_sum
  · unfold transBlock
    have r1 := rows_lt_add N s op ctrl g hInv.rows_lt hopn
    have r2 := rows_lt_add N (s.add op ctrl g) op onn (-g) r1
      (by rw [StampCtx.add_n_eq]; exact hopn)
    have r3 := rows_lt_add N ((s.add op ctrl g).add op onn (-g)) onn ctrl (-g) r2
      (by rw [StampCtx.add_n_eq, StampCtx.add_n_eq]; exact honn)
    exact rows_lt_add N (((s.add op ctrl g).add op onn (-g)).add onn ctrl (-g))
      onn onn g r3
      (by rw [StampCtx.add_n_eq, StampCtx.add_n_eq, StampCtx.add_n_eq]; exact honn)

theorem rhsPair_inv {N : ℕ} {s : StampCtx K} (hInv : MnaInv N s) (a b : ℕ)
    (v : K) (haN : a < N) (hbN : b < N) : MnaInv N (rhsPair s a b v) := by
  have hlen : s.rhs.length = s.builder.n := hInv.rhs_len
  have haL : a < s.rhs.length := by
    rw [hlen]
    exact lt_of_lt_of_le haN hInv.n_ge
  have hbL : b < s.rhs.length := by
    rw [hlen]
    exact lt_of_lt_of_le hbN hInv.n_ge
  have hrb := rhsPair_builder s a b v
  refine ⟨?_, ?_, ?_, ?_, ?_, ?_, ?_⟩
  · show (rhsPair s a b v).nodeCount = N
    unfold rhsPair
    rw [StampCtx.addRhs_nodeCount, StampCtx.addRhs_nodeCount]
    exact hInv.node_eq
  · rw [hrb]
    exact hInv.n_ge
  · rw [hrb]
    show s.builder.n = N + (rhsPair s a b v).aux.length
    rw [rhsPair_aux]
    exact hInv.n_eq
  · rw [rhsPair_rhs_length, hrb]
    exact hInv.rhs_len
  · intro j
    rw [hrb]
    exact hInv.col_sum j
  · unfold rhsPair
    rw [rhsNodeSum_addRhs, rhsNodeSum_addRhs]
    rw [StampCtx.addRhs_rhs_length]
    have h1 : a < N ∧ a < s.rhs.length := ⟨haN, haL⟩
    have h2 : b < N ∧ b < s.rhs.length := ⟨hbN, hbL⟩
    simp [h1, h2, hInv.rhs_sum]
  · intro j
    rw [hrb]
    exact hInv.rows_lt j

theorem addAuxRow_inv {N : ℕ} {s : StampCtx K} (hInv : MnaInv N s) (k j : ℕ)
    (v : K) (hk : N ≤ k) (hkn : k < s.builder.n) : MnaInv N (s.add k j v) := by
  refine ⟨hInv.node_eq, ?_, ?_, ?_, ?_, ?_, ?_⟩
  · rw [StampCtx.add_n_eq]
    exact hInv.n_ge
  · rw [StampCtx.add_n_eq, StampCtx.add_aux]
    exact hInv.n_eq
  · rw [StampCtx.add_n_eq]
    exact hInv.rhs_len
  · intro c
    rw [nodeColSum_add]
    have : ¬ (c = j ∧ j < s.builder.n ∧ k < N) := by
      intro ⟨_, _, hkN⟩
      omega
    simp [this, hInv.col_sum c]
  · exact hInv.rhs_sum
  · exact rows_lt_add N s k j v hInv.rows_lt hkn

theorem addPairOpposite_inv {N : ℕ} {s : StampCtx K} (hInv : MnaInv N s)
    (a b k : ℕ) (v : K) (haN : a < N) (hbN : b < N) :
    MnaInv N ((s.add a k v).add b k (-v)) := by
  have han : a < s.builder.n := lt_of_lt_of_le haN hInv.n_ge
  have hbn : b < s.builder.n := lt_of_lt_of_le hbN hInv.n_ge
  refine ⟨hInv.node_eq, ?_, ?_, ?_, ?_, ?_, ?_⟩
  · rw [StampCtx.add_n_eq, StampCtx.add_n_eq]
    exact hInv.n_ge
  · rw [StampCtx.add_n_eq, StampCtx.add_n_eq, StampCtx.add_aux, StampCtx.add_aux]
    exact hInv.n_eq
  · rw [StampCtx.add_n_eq, StampCtx.add_n_eq]
    exact hInv.rhs_len
  · intro c
    rw [nodeColSum_add, nodeColSum_add]
    simp only [StampCtx.add_n_eq]
    have hbase : ∀ d, nodeColSum N (s.builder.colAt d) = 0 := hInv.col_sum
    by_cases h1 : c = k <;> by_cases h2 : k < s.builder.n <;>
      simp [h1, h2, haN, hbN, hbase] <;> ring
  · exact hInv.rhs_sum
  · have r1 := rows_lt_add N s a k v hInv.rows_lt han
    exact rows_lt_add N (s.add a k v) b k (-v) r1
      (by rw [StampCtx.add_n_eq]; exact hbn)

theorem addRhsAux_inv {N : ℕ} {s : StampCtx K} (hInv : MnaInv N s) (k : ℕ)
    (v : K) (hk : N ≤ k) : MnaInv N (s.addRhs k v) := by
  refine ⟨?_, ?_, ?_, ?_, ?_, ?_, ?_⟩
  · rw [StampCtx.addRhs_nodeCount]
    exact hInv.node_eq
  · rw [StampCtx.addRhs_builder_eq]
    exact hInv.n_ge
  · rw [StampCtx.addRhs_builder_eq, StampCtx.addRhs_aux]
    exact hInv.n_eq
  · rw [StampCtx.addRhs_rhs_length, StampCtx.addRhs_builder_eq]
    exact hInv.rhs_len
  · intro c
    rw [StampCtx.addRhs_builder_eq]
    exact hInv.col_sum c
  · rw [rhsNodeSum_addRhs]
    have : ¬ (k < N ∧ k < s.rhs.length) := by
      intro ⟨hkN, _⟩
      omega
    simp [this, hInv.rhs_sum]
  · intro c
    rw [StampCtx.addRhs_builder_eq]
    exact hInv.rows_lt c

theorem auxLookup_lt_length (l : List String) (nm : String) (id : ℕ)
    (h : auxLookup l nm = some id) : id < l.length := by
  induction l generalizing id with
  | nil => simp [auxLookup] at h
  | cons hd tl ih =>
    rw [auxLookup_cons] at h
    by_cases hh : hd = nm
    · rw [if_pos hh] at h
      injection h with h
      simp [← h]
    · rw [if_neg hh] at h
      obtain ⟨v, hv, he⟩ := Option.map_eq_some'.mp h
      have := ih v hv
      simp
      omega

theorem listResize_length (l : List K) (n : ℕ) (pad : K) :
    (listResize l n pad).length = n := by
  unfold listResize
  simp
  omega

theorem rhsNodeSum_append (N : ℕ) (l l2 : List K) (h : N ≤ l.length) :
    rhsNodeSum N (l ++ l2) = rhsNodeSum N l := by
  unfold rhsNodeSum
  refine Finset.sum_congr rfl (fun k hk => ?_)
  rw [Finset.mem_range] at hk
  rw [List.getD_eq_getElem?_getD, List.getElem?_append_left (by omega),
    ← List.getD_eq_getElem?_getD]

theorem allocateAux_inv {N : ℕ} {s : StampCtx K} (hInv : MnaInv N s)
    (nm : String) :
    MnaInv N (s.allocateAux nm).2 ∧ N ≤ (s.allocateAux nm).1 ∧
      (s.allocateAux nm).1 < (s.allocateAux nm).2.builder.n := by
  unfold StampCtx.allocateAux
  cases hc : auxLookup s.aux nm with
  | some id =>
    have hid : id < s.aux.length := auxLookup_lt_length s.aux nm id hc
    refine ⟨hInv, ?_, ?_⟩
    · simp [hInv.node_eq]
    · show s.nodeCount + id < s.builder.n
      rw [hInv.n_eq, hInv.node_eq]
      omega
  | none =>
    have hgrow : s.builder.n < s.nodeCount + (s.aux ++ [nm]).length := by
      rw [hInv.n_eq, hInv.node_eq]
      simp
    have hresn : (s.builder.resize (s.nodeCount + (s.aux ++ [nm]).length)).n
        = s.builder.n + 1 := by
      rw [SparseBuilder.n_resize, hInv.n_eq, hInv.node_eq]
      simp
      omega
    have hrhs : listResize s.rhs
        (s.builder.resize (s.nodeCount + (s.aux ++ [nm]).length)).n 0
        = s.rhs ++ [0] := by
      rw [hresn]
      unfold listResize
      rw [List.take_of_length_le (by rw [hInv.rhs_len]; omega), hInv.rhs_len]
      simp
    refine ⟨⟨?_, ?_, ?_, ?_, ?_, ?_, ?_⟩, ?_, ?_⟩
    · exact hInv.node_eq
    · show N ≤ (s.builder.resize _).n
      rw [hresn]
      have := hInv.n_ge
      omega
    · show (s.builder.resize _).n = N + (s.aux ++ [nm]).length
      rw [hresn, hInv.n_eq]
      simp
      omega
    · show (listResize s.rhs _ 0).length = (s.builder.resize _).n
      rw [hrhs, hresn, List.length_append, hInv.rhs_len]
      rfl
    · intro j
      show nodeColSum N ((s.builder.resize _).colAt j) = 0
      rw [SparseBuilder.colAt_resize]
      exact hInv.col_sum j
    · show rhsNodeSum N (listResize s.rhs _ 0) = 0
      rw [hrhs, rhsNodeSum_append N s.rhs [0]
        (by rw [hInv.rhs_len]; exact hInv.n_ge)]
      exact hInv.rhs_sum
    · intro j e he
      show e.1 < (s.builder.resize _).n
      rw [SparseBuilder.colAt_resize] at he
      have := hInv.rows_lt j e he
      rw [hresn]
      omega
    · show N ≤ s.nodeCount + s.aux.length
      rw [hInv.node_eq]
      omega
    · show s.nodeCount + s.aux.length < (s.builder.resize _).n
      rw [hresn, hInv.n_eq, hInv.node_eq]
      omega

end PatternInv

section DeviceInv

variable {K : Type} [LinearOrderedField K]

theorem getD_lt_of_nodes {N : ℕ} (l : List ℕ) (h : ∀ a ∈ l, a < N) (i : ℕ)
    (hi : i < l.length) : l.getD i 0 < N := by
  apply h
  rw [List.getD_eq_getElem?_getD, List.getElem?_eq_getElem hi]
  exact List.getElem_mem hi

theorem iteInv {N : ℕ} (c : Prop) [Decidable c] {s1 s2 : StampCtx K}
    (h1 : MnaInv N s1) (h2 : MnaInv N s2) : MnaInv N (if c then s1 else s2) := by
  split
  · exact h1
  · exact h2

theorem guardedPair_inv {N : ℕ} {s : StampCtx K} (hInv : MnaInv N s)
    (c : Prop) [Decidable c] (a b : ℕ) (g w : K) (haN : a < N) (hbN : b < N) :
    MnaInv N (if c then rhsPair (stamp4 s a b g) a b w else s) :=
  iteInv c (rhsPair_inv (stamp4_inv hInv a b g haN hbN) a b w haN hbN) hInv

theorem guardedTrans_inv {N : ℕ} {s : StampCtx K} (hInv : MnaInv N s)
    (c : Prop) [Decidable c] (op ctrl onn : ℕ) (g : K) (hopN : op < N)
    (honN : onn < N) :
    MnaInv N (if c then transBlock s op ctrl onn g else s) :=
  iteInv c (transBlock_inv hInv op ctrl onn g hopN honN) hInv

theorem stampResistor_inv {N : ℕ} {s s2 : StampCtx K} {inst : Instance K}
    (hInv : MnaInv N s) (hnodes : ∀ a ∈ inst.nodes, a < N)
    (h : stampResistor s inst = .ok s2) : MnaInv N s2 := by
  unfold stampResistor at h
  by_cases hlen : inst.nodes.length ≠ 2
  · rw [if_pos hlen] at h
    simp at h
  · rw [if_neg hlen] at h
    have h2 : inst.nodes.length = 2 := by omega
    cases hv : inst.value with
    | none =>
      rw [hv] at h
      simp at h
    | some v =>
      rw [hv] at h
      simp only [Except.ok.injEq] at h
      subst h
      exact stamp4_inv hInv _ _ _
        (getD_lt_of_nodes inst.nodes hnodes 0 (by omega))
        (getD_lt_of_nodes inst.nodes hnodes 1 (by omega))

theorem stampCurrent_inv {N : ℕ} {s s2 : StampCtx K} {inst : Instance K}
    (hInv : MnaInv N s) (hnodes : ∀ a ∈ inst.nodes, a < N)
    (h : stampCurrent s inst = .ok s2) : MnaInv N s2 := by
  unfold stampCurrent at h
  by_cases hlen : inst.nodes.length ≠ 2
  · rw [if_pos hlen] at h
    simp at h
  · rw [if_neg hlen] at h
    have h2 : inst.nodes.length = 2 := by omega
    cases hv : inst.value with
    | none =>
      rw [hv] at h
      simp at h
    | some v =>
      rw [hv] at h
      simp only [Except.ok.injEq] at h
      subst h
      exact rhsPair_inv hInv _ _ _
        (getD_lt_of_nodes inst.nodes hnodes 0 (by omega))
        (getD_lt_of_nodes inst.nodes hnodes 1 (by omega))

theorem stampVoltage_inv {N : ℕ} {s s2 : StampCtx K} {inst : Instance K}
    (hInv : MnaInv N s) (hnodes : ∀ a ∈ inst.nodes, a < N)
    (h : stampVoltage s inst = .ok s2) : MnaInv N s2 := by
  unfold stampVoltage at h
  by_cases hlen : inst.nodes.length ≠ 2
  · rw [if_pos hlen] at h
    simp at h
  · rw [if_neg hlen] at h
    have h2 : inst.nodes.length = 2 := by omega
    cases hv : inst.value with
    | none =>
      rw [hv] at h
      simp at h
    | some v =>
      rw [hv] at h
      simp only [Except.ok.injEq] at h
      subst h
      obtain ⟨hA, hk, hkn⟩ := allocateAux_inv hInv inst.name
      have haN := getD_lt_of_nodes inst.nodes hnodes 0 (by omega)
      have hbN := getD_lt_of_nodes inst.nodes hnodes 1 (by omega)
      have hP := addPairOpposite_inv hA (inst.nodes.getD 0 0) (inst.nodes.getD 1 0)
        (s.allocateAux inst.name).1 1 haN hbN
      have hR1 := addAuxRow_inv hP (s.allocateAux inst.name).1
        (inst.nodes.getD 0 0) 1 hk
        (by rw [StampCtx.add_n_eq, StampCtx.add_n_eq]; exact hkn)
      have hR2 := addAuxRow_inv hR1 (s.allocateAux inst.name).1
        (inst.nodes.getD 1 0) (-1) hk
        (by rw [StampCtx.add_n_eq, StampCtx.add_n_eq, StampCtx.add_n_eq]; exact hkn)
      exact addRhsAux_inv hR2 (s.allocateAux inst.name).1 _ hk

theorem stampDiode_inv {N : ℕ} {s s2 : StampCtx K} {inst : Instance K}
    {rexp : K → K} {x : Option (List K)}
    (hInv : MnaInv N s) (hnodes : ∀ a ∈ inst.nodes, a < N)
    (h : stampDiode rexp s inst x = .ok s2) : MnaInv N s2 := by
  unfold stampDiode at h
  by_cases hlen : inst.nodes.length ≠ 2
  · rw [if_pos hlen] at h
    simp at h
  · rw [if_neg hlen] at h
    have h2 : inst.nodes.length = 2 := by omega
    have haN := getD_lt_of_nodes inst.nodes hnodes 0 (by omega)
    have hbN := getD_lt_of_nodes inst.nodes hnodes 1 (by omega)
    cases hx : x with
    | none =>
      rw [hx] at h
      simp only [Except.ok.injEq] at h
      subst h
      exact stamp4_inv hInv _ _ _ haN hbN
    | some xv =>
      rw [hx] at h
      dsimp only at h
      simp only [Except.ok.injEq] at h
      subst h
      exact rhsPair_inv (stamp4_inv hInv _ _ _ haN hbN) _ _ _ haN hbN

theorem stampMos_inv {N : ℕ} {s s2 : StampCtx K} {inst : Instance K}
    {me : MosEval K} {x : Option (List K)}
    (hInv : MnaInv N s) (hnodes : ∀ a ∈ inst.nodes, a < N)
    (h : stampMos me s inst x = .ok s2) : MnaInv N s2 := by
  unfold stampMos at h
  by_cases hlen : inst.nodes.length < 4
  · rw [if_pos hlen] at h
    simp at h
  · rw [if_neg hlen] at h
    have h4 : 4 ≤ inst.nodes.length := by omega
    have hdN := getD_lt_of_nodes inst.nodes hnodes 0 (by omega)
    have hgN := getD_lt_of_nodes inst.nodes hnodes 1 (by omega)
    have hsN := getD_lt_of_nodes inst.nodes hnodes 2 (by omega)
    have hbN := getD_lt_of_nodes inst.nodes hnodes 3 (by omega)
    cases hx : x with
    | none =>
      rw [hx] at h
      simp only [Except.ok.injEq] at h
      subst h
      exact stamp4_inv hInv _ _ _ hdN hsN
    | some xv =>
      rw [hx] at h
      dsimp only at h
      by_cases hl : 54 ≤ (paramValue inst.params [("level")]).getD 49 ∧
          (paramValue inst.params [("level")]).getD 49 < (55 : K)
      · rw [if_pos hl] at h
        simp only [Except.ok.injEq] at h
        subst h
        exact guardedPair_inv
          (guardedPair_inv
            (guardedPair_inv
              (rhsPair_inv
                (guardedTrans_inv
                  (transBlock_inv (stamp4_inv hInv _ _ _ hdN hsN)
                    _ _ _ _ hdN hsN)
                  _ _ _ _ _ hdN hsN)
                _ _ _ hdN hsN)
              _ _ _ _ _ hdN hbN)
            _ _ _ _ _ hgN hsN)
          _ _ _ _ _ hgN hdN
      · rw [if_neg hl] at h
        simp only [Except.ok.injEq] at h
        subst h
        exact rhsPair_inv
          (guardedTrans_inv
            (transBlock_inv (stamp4_inv hInv _ _ _ hdN hsN) _ _ _ _ hdN hsN)
            _ _ _ _ _ hdN hsN)
          _ _ _ hdN hsN

theorem stampInductorDc_inv {N : ℕ} {s s2 : StampCtx K} {inst : Instance K}
    (hInv : MnaInv N s) (hnodes : ∀ a ∈ inst.nodes, a < N)
    (h : stampInductorDc s inst = .ok s2) : MnaInv N s2 := by
  unfold stampInductorDc at h
  by_cases hlen : inst.nodes.length ≠ 2
  · rw [if_pos hlen] at h
    simp at h
  · rw [if_neg hlen] at h
    have h2 : inst.nodes.length = 2 := by omega
    simp only [Except.ok.injEq] at h
    subst h
    exact stamp4_inv hInv _ _ _
      (getD_lt_of_nodes inst.nodes hnodes 0 (by omega))
      (getD_lt_of_nodes inst.nodes hnodes 1 (by omega))

theorem stampVcvs_inv {N : ℕ} {s s2 : StampCtx K} {inst : Instance K}
    (hInv : MnaInv N s) (hnodes : ∀ a ∈ inst.nodes, a < N)
    (h : stampVcvs s inst = .ok s2) : MnaInv N s2 := by
  unfold stampVcvs at h
  by_cases hlen : inst.nodes.length ≠ 4
  · rw [if_pos hlen] at h
    simp at h
  · rw [if_neg hlen] at h
    have h4 : inst.nodes.length = 4 := by omega
    cases hv : inst.value with
    | none =>
      rw [hv] at h
      simp at h
    | some gain =>
      rw [hv] at h
      simp only [Except.ok.injEq] at h
      subst h
      obtain ⟨hA, hk, hkn⟩ := allocateAux_inv hInv inst.name
      have hopN := getD_lt_of_nodes inst.nodes hnodes 0 (by omega)
      have honN := getD_lt_of_nodes inst.nodes hnodes 1 (by omega)
      have hP := addPairOpposite_inv hA (inst.nodes.getD 0 0) (inst.nodes.getD 1 0)
        (s.allocateAux inst.name).1 1 hopN honN
      have hR1 := addAuxRow_inv hP (s.allocateAux inst.name).1
        (inst.nodes.getD 0 0) 1 hk
        (by rw [StampCtx.add_n_eq, StampCtx.add_n_eq]; exact hkn)
      have hR2 := addAuxRow_inv hR1 (s.allocateAux inst.name).1
        (inst.nodes.getD 1 0) (-1) hk
        (by rw [StampCtx.add_n_eq, StampCtx.add_n_eq, StampCtx.add_n_eq]; exact hkn)
      have hR3 := addAuxRow_inv hR2 (s.allocateAux inst.name).1
        (inst.nodes.getD 2 0) (-gain) hk
        (by rw [StampCtx.add_n_eq, StampCtx.add_n_eq, StampCtx.add_n_eq,
          StampCtx.add_n_eq]; exact hkn)
      exact addAuxRow_inv hR3 (s.allocateAux inst.name).1
        (inst.nodes.getD 3 0) gain hk
        (by rw [StampCtx.add_n_eq, StampCtx.add_n_eq, StampCtx.add_n_eq,
          StampCtx.add_n_eq, StampCtx.add_n_eq]; exact hkn)

theorem vccsQuad_inv {N : ℕ} {s : StampCtx K} (hInv : MnaInv N s)
    (op onn ip inn : ℕ) (g : K) (hopN : op < N) (honN : onn < N) :
    MnaInv N ((((s.add op ip g).add op inn (-g)).add onn ip (-g)).add onn inn g) := by
  have hopn : op < s.builder.n := lt_of_lt_of_le hopN hInv.n_ge
  have honn : onn < s.builder.n := lt_of_lt_of_le honN hInv.n_ge
  refine ⟨hInv.node_eq, ?_, ?_, ?_, ?_, ?_, ?_⟩
  · rw [StampCtx.add_n_eq, StampCtx.add_n_eq, StampCtx.add_n_eq, StampCtx.add_n_eq]
    exact hInv.n_ge
  · rw [StampCtx.add_n_eq, StampCtx.add_n_eq, StampCtx.add_n_eq, StampCtx.add_n_eq,
      StampCtx.add_aux, StampCtx.add_aux, StampCtx.add_aux, StampCtx.add_aux]
    exact hInv.n_eq
  · rw [StampCtx.add_n_eq, StampCtx.add_n_eq, StampCtx.add_n_eq, StampCtx.add_n_eq]
    exact hInv.rhs_len
  · intro j
    rw [nodeColSum_add, nodeColSum_add, nodeColSum_add, nodeColSum_add]
    simp only [StampCtx.add_n_eq]
    have hbase : ∀ c, nodeColSum N (s.builder.colAt c) = 0 := hInv.col_sum
    by_cases h1 : j = ip <;> by_cases h2 : j = inn <;>
      by_cases h3 : ip < s.builder.n <;> by_cases h4 : inn < s.builder.n <;>
      by_cases h5 : ip = inn <;>
      simp [h1, h2, h3, h4, h5, eq_comm, hopN, honN, hbase] <;>
      first | ring | omega
  · exact hInv.rhs_sum
  · have r1 := rows_lt_add N s op ip g hInv.rows_lt hopn
    have r2 := rows_lt_add N (s.add op ip g) op inn (-g) r1
      (by rw [StampCtx.add_n_eq]; exact hopn)
    have r3 := rows_lt_add N ((s.add op ip g).add op inn (-g)) onn ip (-g) r2
      (by rw [StampCtx.add_n_eq, StampCtx.add_n_eq]; exact honn)
    exact rows_lt_add N (((s.add op ip g).add op inn (-g)).add onn ip (-g))
      onn inn g r3
      (by rw [StampCtx.add_n_eq, StampCtx.add_n_eq, StampCtx.add_n_eq]; exact honn)

theorem stampVccs_inv {N : ℕ} {s s2 : StampCtx K} {inst : Instance K}
    (hInv : MnaInv N s) (hnodes : ∀ a ∈ inst.nodes, a < N)
    (h : stampVccs s inst = .ok s2) : MnaInv N s2 := by
  unfold stampVccs at h
  by_cases hlen : inst.nodes.length ≠ 4
  · rw [if_pos hlen] at h
    simp at h
  · rw [if_neg hlen] at h
    have h4 : inst.nodes.length = 4 := by omega
    cases hv : inst.value with
    | none =>
      rw [hv] at h
      simp at h
    | some gm =>
      rw [hv] at h
      simp only [Except.ok.injEq] at h
      subst h
      exact vccsQuad_inv hInv _ _ _ _ gm
        (getD_lt_of_nodes inst.nodes hnodes 0 (by omega))
        (getD_lt_of_nodes inst.nodes hnodes 1 (by omega))

theorem stampCccs_inv {N : ℕ} {s s2 : StampCtx K} {inst : Instance K}
    (hInv : MnaInv N s) (hnodes : ∀ a ∈ inst.nodes, a < N)
    (h : stampCccs s inst = .ok s2) : MnaInv N s2 := by
  unfold stampCccs at h
  by_cases hlen : inst.nodes.length ≠ 2
  · rw [if_pos hlen] at h
    simp at h
  · rw [if_neg hlen] at h
    have h2 : inst.nodes.length = 2 := by omega
    cases hv : inst.value with
    | none =>
      rw [hv] at h
      simp at h
    | some gain =>
      rw [hv] at h
      cases hctl : inst.control with
      | none =>
        rw [hctl] at h
        simp at h
      | some controlName =>
        rw [hctl] at h
        dsimp only at h
        cases hla : auxLookup s.aux controlName with
        | none =>
          rw [hla] at h
          simp at h
        | some controlAux =>
          rw [hla] at h
          simp only [Except.ok.injEq] at h
          subst h
          exact addPairOpposite_inv hInv _ _ _ gain
            (getD_lt_of_nodes inst.nodes hnodes 0 (by omega))
            (getD_lt_of_nodes inst.nodes hnodes 1 (by omega))

theorem stampCcvs_inv {N : ℕ} {s s2 : StampCtx K} {inst : Instance K}
    (hInv : MnaInv N s) (hnodes : ∀ a ∈ inst.nodes, a < N)
    (h : stampCcvs s inst = .ok s2) : MnaInv N s2 := by
  unfold stampCcvs at h
  by_cases hlen : inst.nodes.length ≠ 2
  · rw [if_pos hlen] at h
    simp at h
  · rw [if_neg hlen] at h
    have h2 : inst.nodes.length = 2 := by omega
    cases hv : inst.value with
    | none =>
      rw [hv] at h
      simp at h
    | some gain =>
      rw [hv] at h
      cases hctl : inst.control with
      | none =>
        rw [hctl] at h
        simp at h
      | some controlName =>
        rw [hctl] at h
        dsimp only at h
        cases hla : auxLookup s.aux controlName with
        | none =>
          rw [hla] at h
          simp at h
        | some controlAux =>
          rw [hla] at h
          simp only [Except.ok.injEq] at h
          subst h
          obtain ⟨hA, hk, hkn⟩ := allocateAux_inv hInv inst.name
          have hopN := getD_lt_of_nodes inst.nodes hnodes 0 (by omega)
          have honN := getD_lt_of_nodes inst.nodes hnodes 1 (by omega)
          have hP := addPairOpposite_inv hA (inst.nodes.getD 0 0)
            (inst.nodes.getD 1 0) (s.allocateAux inst.name).1 1 hopN honN
          have hR1 := addAuxRow_inv hP (s.allocateAux inst.name).1
            (inst.nodes.getD 0 0) 1 hk
            (by rw [StampCtx.add_n_eq, StampCtx.add_n_eq]; exact hkn)
          have hR2 := addAuxRow_inv hR1 (s.allocateAux inst.name).1
            (inst.nodes.getD 1 0) (-1) hk
            (by rw [StampCtx.add_n_eq, StampCtx.add_n_eq, StampCtx.add_n_eq]
                exact hkn)
          exact addAuxRow_inv hR2 (s.allocateAux inst.name).1
            (s.nodeCount + controlAux) (-gain) hk
            (by rw [StampCtx.add_n_eq, StampCtx.add_n_eq, StampCtx.add_n_eq,
              StampCtx.add_n_eq]; exact hkn)

theorem applyStampDC_inv {N : ℕ} {s : StampCtx K} {inst : Instance K}
    {me : MosEval K} {rexp : K → K} {x : Option (List K)}
    (hInv : MnaInv N s) (hnodes : ∀ a ∈ inst.nodes, a < N) :
    MnaInv N (applyStampDC me rexp inst x s) := by
  unfold applyStampDC
  cases hk : stampDC me rexp inst x s with
  | error e => exact hInv
  | ok s2 =>
    unfold stampDC at hk
    cases hkind : inst.kind <;> rw [hkind] at hk
    case R => exact stampResistor_inv hInv hnodes hk
    case C =>
      simp only [Except.ok.injEq] at hk
      subst hk
      exact hInv
    case L => exact stampInductorDc_inv hInv hnodes hk
    case V => exact stampVoltage_inv hInv hnodes hk
    case I => exact stampCurrent_inv hInv hnodes hk
    case D => exact stampDiode_inv hInv hnodes hk
    case M => exact stampMos_inv hInv hnodes hk
    case E => exact stampVcvs_inv hInv hnodes hk
    case G => exact stampVccs_inv hInv hnodes hk
    case F => exact stampCccs_inv hInv hnodes hk
    case H => exact stampCcvs_inv hInv hnodes hk
    case X =>
      simp only [Except.ok.injEq] at hk
      subst hk
      exact hInv

theorem foldl_stamp_inv {N : ℕ} {me : MosEval K} {rexp : K → K}
    {x : Option (List K)} (insts : List (Instance K)) (s : StampCtx K)
    (hInv : MnaInv N s)
    (hnodes : ∀ inst ∈ insts, ∀ a ∈ inst.nodes, a < N) :
    MnaInv N (insts.foldl (fun s inst => applyStampDC me rexp inst x s) s) := by
  induction insts generalizing s with
  | nil => exact hInv
  | cons hd tl ih =>
    rw [List.foldl_cons]
    exact ih _ (applyStampDC_inv hInv (hnodes hd (by simp)))
      (fun inst hm => hnodes inst (by simp [hm]))

end DeviceInv

section GroundPin

variable {K : Type} [LinearOrderedField K]

theorem sum_colVal (N : ℕ) (col : List (ℕ × K)) :
    ∑ i ∈ Finset.range N, colVal col i = nodeColSum N col := by
  induction col with
  | nil => simp [colVal, nodeColSum]
  | cons e tl ih =>
    have hcv : ∀ i, colVal (e :: tl) i =
        (if e.1 = i then e.2 else 0) + colVal tl i := by
      intro i
      unfold colVal
      by_cases he : e.1 = i <;> simp [List.filter_cons, he]
    have hnc : nodeColSum N (e :: tl) =
        (if e.1 < N then e.2 else 0) + nodeColSum N tl := by
      unfold nodeColSum
      by_cases he : e.1 < N <;> simp [List.filter_cons, he]
    rw [Finset.sum_congr rfl (fun i _ => hcv i), Finset.sum_add_distrib, ih, hnc]
    congr 1
    rw [Finset.sum_ite_eq (Finset.range N) e.1 (fun _ => e.2)]
    simp

theorem pinned_colsum {N : ℕ} {s0 : StampCtx K} (hInv : MnaInv N s0)
    (gnd : ℕ) (hg : gnd < N) (j : ℕ) :
    nodeColSum N ((s0.builder.insert gnd gnd 1).colAt j) =
      if j = gnd then 1 else 0 := by
  rw [SparseBuilder.colAt_insert]
  by_cases hj : j = gnd
  · rw [if_pos ⟨hj, lt_of_lt_of_le hg hInv.n_ge⟩, nodeColSum_append_single]
    simp [hInv.col_sum, hj, hg]
  · rw [if_neg (by tauto)]
    simp [hInv.col_sum, hj]

/-- MosEval whose evaluators return all-zero outputs, for closed instances
of theorems quantified over the model evaluators. -/
def zeroEval : MosEval K :=
  ⟨fun _ _ _ _ _ => ⟨⟨0, 0, 0, 0⟩, 0, 0, 0, 0, 0, 0⟩, fun _ _ _ _ _ => ⟨0, 0, 0, 0⟩⟩

end GroundPin

/-- C3: for every circuit whose node indices are in range and whose DC
assembly at ground gnd < N is as run_dc_result performs it (all device
stamps at the bias, then the 1.0 pin at (gnd, gnd)), every exact solution y
of the assembled linear system has y gnd = 0: summing the node rows, every
device stamp is charge-balanced per column (KCL) and the RHS is balanced,
so the only surviving term is the pin, 1 * y gnd = 0. -/
theorem C3_ground_pinned {K : Type} [LinearOrderedField K]
    (me : MosEval K) (rexp : K → K) (N gnd : ℕ) (insts : List (Instance K))
    (x : List K) (gmin srcScale : K) (y : ℕ → K)
    (hgnd : gnd < N)
    (hnodes : ∀ inst ∈ insts, ∀ a ∈ inst.nodes, a < N)
    (hsol : ∀ i < N,
      ∑ j ∈ Finset.range
          (assembleDc me rexp N gnd insts x gmin srcScale).builder.n,
        (assembleDc me rexp N gnd insts x gmin srcScale).entryAt i j * y j
      = (assembleDc me rexp N gnd insts x gmin srcScale).rhsAt i) :
    y gnd = 0 := by
  have hInv : MnaInv N (insts.foldl
      (fun s inst => applyStampDC me rexp inst (some x) s)
      (initCtx N gmin srcScale)) :=
    foldl_stamp_inv insts _ (MnaInv.init N gmin srcScale) hnodes
  have hbuilder : (assembleDc me rexp N gnd insts x gmin srcScale).builder =
      (insts.foldl (fun s inst => applyStampDC me rexp inst (some x) s)
        (initCtx N gmin srcScale)).builder.insert gnd gnd 1 := rfl
  have hrhs : (assembleDc me rexp N gnd insts x gmin srcScale).rhs =
      (insts.foldl (fun s inst => applyStampDC me rexp inst (some x) s)
        (initCtx N gmin srcScale)).rhs := rfl
  have hn : (assembleDc me rexp N gnd insts x gmin srcScale).builder.n =
      (insts.foldl (fun s inst => applyStampDC me rexp inst (some x) s)
        (initCtx N gmin srcScale)).builder.n := by
    rw [hbuilder]
    exact SparseBuilder.n_insert _ _ _ _
  have hgn : gnd <
      (assembleDc me rexp N gnd insts x gmin srcScale).builder.n := by
    rw [hn]
    exact lt_of_lt_of_le hgnd hInv.n_ge
  have hcolsum : ∀ j,
      ∑ i ∈ Finset.range N,
        (assembleDc me rexp N gnd insts x gmin srcScale).entryAt i j =
      if j = gnd then 1 else 0 := by
    intro j
    unfold StampCtx.entryAt
    rw [sum_colVal, hbuilder]
    exact pinned_colsum hInv gnd hgnd j
  have hsum : ∑ i ∈ Finset.range N,
      ∑ j ∈ Finset.range
          (assembleDc me rexp N gnd insts x gmin srcScale).builder.n,
        (assembleDc me rexp N gnd insts x gmin srcScale).entryAt i j * y j
      = ∑ i ∈ Finset.range N,
        (assembleDc me rexp N gnd insts x gmin srcScale).rhsAt i :=
    Finset.sum_congr rfl (fun i hi => hsol i (Finset.mem_range.mp hi))
  have hrhs0 : ∑ i ∈ Finset.range N,
      (assembleDc me rexp N gnd insts x gmin srcScale).rhsAt i = 0 := by
    show rhsNodeSum N (assembleDc me rexp N gnd insts x gmin srcScale).rhs = 0
    rw [hrhs]
    exact hInv.rhs_sum
  have hlhs : ∑ i ∈ Finset.range N,
      ∑ j ∈ Finset.range
          (assembleDc me rexp N gnd insts x gmin srcScale).builder.n,
        (assembleDc me rexp N gnd insts x gmin srcScale).entryAt i j * y j
      = y gnd := by
    rw [Finset.sum_comm]
    calc ∑ j ∈ Finset.range
            (assembleDc me rexp N gnd insts x gmin srcScale).builder.n,
          ∑ i ∈ Finset.range N,
            (assembleDc me rexp N gnd insts x gmin srcScale).entryAt i j * y j
        = ∑ j ∈ Finset.range
            (assembleDc me rexp N gnd insts x gmin srcScale).builder.n,
          (if j = gnd then 1 else 0) * y j := by
          refine Finset.sum_congr rfl (fun j hj => ?_)
          rw [← Finset.sum_mul, hcolsum j]
      _ = y gnd := by
          simp only [ite_mul, one_mul, zero_mul]
          rw [Finset.sum_ite_eq'
            (Finset.range
              (assembleDc me rexp N gnd insts x gmin srcScale).builder.n)
            gnd y]
          rw [if_pos (Finset.mem_range.mpr hgn)]
  rw [hlhs, hrhs0] at hsum
  exact hsum

/-- Witness for C3: the one-node empty circuit, assembled with ground 0 and
the zero bias; the zero vector solves the pinned system and its ground
entry is 0. -/
theorem C3_witness :
    (0 : ℕ) < 1 ∧ (fun _ : ℕ => (0 : ℚ)) 0 = 0 :=
  ⟨by decide,
    C3_ground_pinned (zeroEval (K := ℚ)) (fun t => t) 1 0 [] [] 0 1
      (fun _ => 0) (by decide) (by simp)
      (by
        intro i hi
        interval_cases i
        simp only [mul_zero, Finset.sum_const_zero]
        rfl)⟩

section CcsInv

variable {K : Type} [LinearOrderedField K]

theorem lensScan_getD_zero {α : Type} (L : List (List α)) :
    (lensScan L).getD 0 0 = 0 := by
  cases L with
  | nil => rfl
  | cons c rest => rw [lensScan_cons, List.getD_cons_zero]

theorem lensScan_chain {α : Type} (L : List (List α)) :
    List.Chain' (fun a b : ℕ => a ≤ b) (lensScan L) := by
  induction L with
  | nil => simp [lensScan, List.scanl]
  | cons c rest ih =>
    rw [lensScan_cons, List.chain'_cons']
    constructor
    · intro b hb
      exact Nat.zero_le b
    · rw [List.chain'_map]
      exact ih.imp (fun a b h => by omega)

theorem intCastList_eq_map (l : List ℕ) :
    l.map (fun k => (k : ℤ)) = l.map (fun k : ℕ => (k : ℤ)) := by
  induction l with
  | nil => rfl
  | cons hd tl ih => simp_all

theorem chain_intCast (l : List ℕ)
    (h : List.Chain' (fun a b : ℕ => a ≤ b) l) :
    List.Chain' (fun a b : ℤ => a ≤ b) (l.map (fun k : ℕ => (k : ℤ))) := by
  rw [List.chain'_map]
  exact h.imp (fun a b hab => by exact_mod_cast hab)

theorem finalize_ap_length (b : SparseBuilder K) :
    b.finalize.1.length = b.n + 1 := by
  rw [SparseBuilder.finalize_ap, intCastList_eq_map, List.length_map,
    lensScan_length, List.length_map]
  rfl

theorem finalize_rows_range (b : SparseBuilder K)
    (hrows : ∀ j, ∀ e ∈ b.colAt j, e.1 < b.n) :
    ∀ r ∈ b.finalize.2.1, 0 ≤ r ∧ r < (b.n : ℤ) := by
  intro r hr
  rw [SparseBuilder.finalize_ai, List.mem_flatten] at hr
  obtain ⟨l, hl, hrl⟩ := hr
  rw [List.mem_map] at hl
  obtain ⟨col2, hcol2, rfl⟩ := hl
  rw [List.mem_map] at hcol2
  obtain ⟨col, hcol, rfl⟩ := hcol2
  rw [List.mem_map] at hrl
  obtain ⟨e, he, rfl⟩ := hrl
  have he2 : e ∈ col := ((List.perm_insertionSort rowLe col).mem_iff).mp he
  obtain ⟨j, hj, hget⟩ := List.mem_iff_getElem.mp hcol
  have hcolAt : b.colAt j = col := by
    unfold SparseBuilder.colAt
    rw [List.getD_eq_getElem?_getD, List.getElem?_eq_getElem hj, hget]
    rfl
  have := hrows j e (by rw [hcolAt]; exact he2)
  constructor
  · exact_mod_cast Nat.zero_le e.1
  · exact_mod_cast this

end CcsInv

/-- C9: for every circuit whose node indices are in range, the
compressed-column output (ap, ai, ax) of finalize on the assembled and
pinned MNA builder of effective dimension N + number-of-aux-variables
satisfies: ap has N+K+1 entries, ap[0] = 0, ap is non-decreasing, and every
stored row index ai[k] lies in [0, N+K). -/
theorem C9_finalize_ccs {K : Type} [LinearOrderedField K]
    (me : MosEval K) (rexp : K → K) (N gnd : ℕ) (insts : List (Instance K))
    (x : List K) (gmin srcScale : K)
    (hgnd : gnd < N)
    (hnodes : ∀ inst ∈ insts, ∀ a ∈ inst.nodes, a < N) :
    (assembleDc me rexp N gnd insts x gmin srcScale).builder.finalize.1.length
        = N + (assembleDc me rexp N gnd insts x gmin srcScale).aux.length + 1 ∧
    (assembleDc me rexp N gnd insts x gmin srcScale).builder.finalize.1.getD 0 0
        = 0 ∧
    List.Chain' (fun a b : ℤ => a ≤ b)
      (assembleDc me rexp N gnd insts x gmin srcScale).builder.finalize.1 ∧
    ∀ r ∈ (assembleDc me rexp N gnd insts x gmin srcScale).builder.finalize.2.1,
      0 ≤ r ∧ r <
        ((N + (assembleDc me rexp N gnd insts x gmin srcScale).aux.length : ℕ)
          : ℤ) := by
  have hInv : MnaInv N (insts.foldl
      (fun s inst => applyStampDC me rexp inst (some x) s)
      (initCtx N gmin srcScale)) :=
    foldl_stamp_inv insts _ (MnaInv.init N gmin srcScale) hnodes
  have hbuilder : (assembleDc me rexp N gnd insts x gmin srcScale).builder =
      ((insts.foldl (fun s inst => applyStampDC me rexp inst (some x) s)
        (initCtx N gmin srcScale)).add gnd gnd 1).builder := rfl
  have haux : (assembleDc me rexp N gnd insts x gmin srcScale).aux =
      (insts.foldl (fun s inst => applyStampDC me rexp inst (some x) s)
        (initCtx N gmin srcScale)).aux := rfl
  have hgn : gnd < (insts.foldl
      (fun s inst => applyStampDC me rexp inst (some x) s)
      (initCtx N gmin srcScale)).builder.n :=
    lt_of_lt_of_le hgnd hInv.n_ge
  have hn : (assembleDc me rexp N gnd insts x gmin srcScale).builder.n =
      N + (assembleDc me rexp N gnd insts x gmin srcScale).aux.length := by
    rw [hbuilder, StampCtx.add_n_eq, haux]
    exact hInv.n_eq
  have hrows : ∀ j, ∀ e ∈
      (assembleDc me rexp N gnd insts x gmin srcScale).builder.colAt j,
      e.1 < (assembleDc me rexp N gnd insts x gmin srcScale).builder.n := by
    rw [hbuilder]
    exact rows_lt_add N _ gnd gnd 1 hInv.rows_lt hgn
  refine ⟨?_, ?_, ?_, ?_⟩
  · rw [finalize_ap_length, hn]
  · rw [SparseBuilder.finalize_ap, getD_map_intCast, lensScan_getD_zero]
    rfl
  · rw [SparseBuilder.finalize_ap, intCastList_eq_map]
    exact chain_intCast _ (lensScan_chain _)
  · rw [← hn]
    exact finalize_rows_range _ hrows

/-- Witness for C9: the one-node empty circuit assembled at ground 0; the
pinned builder finalizes to ap = [0, 1], ai = [0]. -/
theorem C9_witness :
    ((0 : ℕ) < 1) ∧
    ((assembleDc (zeroEval (K := ℚ)) (fun t => t) 1 0 [] [] 0
        1).builder.finalize.1.length
      = 1 + (assembleDc (zeroEval (K := ℚ)) (fun t => t) 1 0 [] [] 0
        1).aux.length + 1 ∧
    (assembleDc (zeroEval (K := ℚ)) (fun t => t) 1 0 [] [] 0
        1).builder.finalize.1.getD 0 0 = 0 ∧
    List.Chain' (fun a b : ℤ => a ≤ b)
      (assembleDc (zeroEval (K := ℚ)) (fun t => t) 1 0 [] [] 0
        1).builder.finalize.1 ∧
    ∀ r ∈ (assembleDc (zeroEval (K := ℚ)) (fun t => t) 1 0 [] [] 0
        1).builder.finalize.2.1,
      0 ≤ r ∧ r <
        ((1 + (assembleDc (zeroEval (K := ℚ)) (fun t => t) 1 0 [] [] 0
          1).aux.length : ℕ) : ℤ)) :=
  ⟨by decide,
    C9_finalize_ccs (zeroEval (K := ℚ)) (fun t => t) 1 0 [] [] 0 1
      (by decide) (by simp)⟩

section BsimDefs

variable {K : Type} [LinearOrderedField K]

/-- Embeds bsim/types.rs MosType. -/
inductive MosType
  | Nmos
  | Pmos
deriving DecidableEq

/-- Embeds bsim/types.rs MosRegion. -/
inductive MosRegion
  | Cutoff
  | Linear
  | Saturation
deriving DecidableEq

/-- Embeds bsim/params.rs BsimParams, restricted to the fields the DC
evaluator reads. -/
structure BsimParamsK (K : Type) where
  mosType : MosType
  vth0 : K
  k1 : K
  k2 : K
  dvt0 : K
  dvt1 : K
  dvt2 : K
  eta0 : K
  dsub : K
  nfactor : K
  nlx : K
  u0 : K
  ua : K
  ub : K
  uc : K
  tox : K
  lint : K
  wint : K
  rdsw : K
  tnom : K
  ute : K
  kt1 : K
  kt1l : K
  kt2 : K

/-- Embeds bsim/params.rs EPSILON_OX = 3.9 * 8.854e-12. -/
def epsilonOx : K := (39 / 10) * (8854 / 10 ^ 15)

/-- Embeds bsim/params.rs K_BOLTZMANN = 1.381e-23. -/
def kBoltzmann : K := 1381 / 10 ^ 26

/-- Embeds bsim/params.rs Q_ELECTRON = 1.602e-19. -/
def qElectron : K := 1602 / 10 ^ 22

/-- Embeds bsim/evaluate.rs GMIN = 1e-12. -/
def bsimGmin : K := 1 / 10 ^ 12

/-- Embeds bsim/types.rs BsimOutput restricted to the DC fields. -/
structure BsimOutputK (K : Type) where
  ids : K
  gm : K
  gds : K
  gmbs : K
  ieq : K
  region : MosRegion
  vthEff : K

/-- Modelled from the spec: the physics submodules threshold.rs,
mobility.rs and channel.rs of this crate are not under src/; the spec
describes calculate_vth structurally (body-effect term as an unspecified
function of k1, k2 and Vbs; short-channel and DIBL exponentials over an
unspecified characteristic length; an analytically tracked dVth/dVbs) and
the mobility, Vdsat, CLM and Rds computations only functionally, so those
pieces enter the embedding as parameters with the signatures evaluate.rs
calls them with.  rexp stands for the f64 exponential. -/
structure BsimPhysics (K : Type) where
  rexp : K → K
  bodyTerm : K → K → K → K
  scScale : K
  lchar : K
  dvthDvbs : BsimParamsK K → K → K → K → K → K
  mobility : BsimParamsK K → K → K → K → K → K → K
  vdsatF : BsimParamsK K → K → K → K → K → K × K
  clmF : BsimParamsK K → K → K → K → K → K × K
  rdsF : BsimParamsK K → K → K → K

/-- Modelled from the spec (step 5 of the BSIM algorithm): Vth = vth0 plus
the body-effect term, minus the short-channel term proportional to
dvt0·(1 + dvt2·Vbs)·exp(−dvt1·Leff/lchar), minus the DIBL term
eta0·exp(−dsub·Leff/lchar)·Vds, plus the temperature drift
(kt1 + kt1l/Leff + kt2·Vbs)·(T/Tnom − 1). -/
def calcVth (phy : BsimPhysics K) (p : BsimParamsK K)
    (vbs vds leff temp : K) : K :=
  p.vth0 + phy.bodyTerm p.k1 p.k2 vbs
    - phy.scScale * p.dvt0 * (1 + p.dvt2 * vbs)
        * phy.rexp (-(p.dvt1 * leff / phy.lchar))
    - p.eta0 * phy.rexp (-(p.dsub * leff / phy.lchar)) * vds
    + (p.kt1 + p.kt1l / leff + p.kt2 * vbs) * (temp / p.tnom - 1)

/-- The tail of evaluate_bsim_dc after the region block: clamp ids at 0,
the series-resistance correction of gds, the PMOS sign on ids, and the
equivalent current against the caller-frame voltages. -/
def finishBsim (phy : BsimPhysics K) (p : BsimParamsK K)
    (weff vds ids0 gm gds0 gmbs sign vgsO vdsO vbsO temp : K)
    (region : MosRegion) (vth : K) : BsimOutputK K :=
  let ids1 := max ids0 0
  let rds := phy.rdsF p weff temp
  let gds := if 0 < rds ∧ 0 < ids1 ∧ ids1 * rds < vds * (1 / 2) then
      gds0 / (1 + rds * gds0)
    else gds0
  let ids2 := ids1 * sign
  let ieq := ids2 - gm * vgsO - gds * vdsO - gmbs * vbsO
  ⟨ids2, gm, gds, gmbs, ieq, region, vth⟩

/-- The body of evaluate_bsim_dc after the polarity flip and the
source/drain reversal: vgs, vds, vbs are the internal voltages, sign the
PMOS sign, vgsO/vdsO/vbsO the caller-frame voltages used by ieq. -/
def evalPost (phy : BsimPhysics K) (p : BsimParamsK K)
    (w l vgs vds vbs sign vgsO vdsO vbsO temp : K) : BsimOutputK K :=
  let leff := max (l - 2 * p.lint) (1 / 10 ^ 9)
  let weff := max (w - 2 * p.wint) (1 / 10 ^ 9)
  let cox := epsilonOx / p.tox
  let vt := kBoltzmann * temp / qElectron
  let vth := calcVth phy p vbs vds leff temp
  let dvth := phy.dvthDvbs p vbs vds leff temp
  let vgst := vgs - vth
  if vgst ≤ 0 then
    let n := max p.nfactor 1
    let i0 := weff / leff * p.u0 * (1 / 10 ^ 4) * cox * vt * vt * (n - 1)
    let expVgst := phy.rexp (vgst / (n * vt))
    let expVds := phy.rexp (-vds / vt)
    let ids0 := max (i0 * expVgst * (1 - expVds)) 0
    let gm0 := ids0 / (n * vt)
    let gds0 := i0 * expVgst * expVds / vt
    let gmbs := -gm0 * dvth
    finishBsim phy p weff vds ids0 (max gm0 (bsimGmin * (1 / 100)))
      (max gds0 bsimGmin) gmbs sign vgsO vdsO vbsO temp MosRegion.Cutoff vth
  else
    let ueff := phy.mobility p vgs vbs vth leff temp
    let vpair := phy.vdsatF p vgs vth ueff leff
    let beta := weff / leff * (ueff * (1 / 10 ^ 4)) * cox
    if vds < vpair.1 then
      finishBsim phy p weff vds (beta * (vgst * vds - (1 / 2) * vds * vds))
        (beta * vds) (max (beta * (vgst - vds)) bsimGmin)
        (-(beta * vds) * dvth) sign vgsO vdsO vbsO temp MosRegion.Linear vth
    else
      let cpair := phy.clmF p vds vpair.1 leff ueff
      let idsSat := (1 / 2) * beta * vpair.1 * vpair.1
      let gmSat := beta * vpair.1 * vpair.2 * cpair.1
      finishBsim phy p weff vds (idsSat * cpair.1) gmSat
        (max (idsSat * cpair.2) bsimGmin + gmSat * p.eta0)
        (-gmSat * dvth) sign vgsO vdsO vbsO temp MosRegion.Saturation vth

/-- Embeds bsim/evaluate.rs evaluate_bsim_dc: the PMOS polarity flip with
D/S swap, then the source/drain reversal for negative Vds which recomputes
vgs from the swapped terminals but keeps vbs relative to the original
source. -/
def evaluateBsimDc (phy : BsimPhysics K) (p : BsimParamsK K)
    (w l vd vg vs vb temp : K) : BsimOutputK K :=
  let q : K × K × K × K × K := match p.mosType with
    | MosType.Nmos => (vd, vg, vs, vb, 1)
    | MosType.Pmos => (-vs, -vg, -vd, -vb, -1)
  let vdI := q.1
  let vgI := q.2.1
  let vsI := q.2.2.1
  let vbI := q.2.2.2.1
  let sign := q.2.2.2.2
  let vgs0 := vgI - vsI
  let vds0 := vdI - vsI
  let vbs := vbI - vsI
  if vds0 < 0 then
    evalPost phy p w l (vgI - vdI) (-vds0) vbs sign (vg - vs) (vd - vs)
      (vb - vs) temp
  else
    evalPost phy p w l vgs0 vds0 vbs sign (vg - vs) (vd - vs) (vb - vs) temp

end BsimDefs

section BsimLemmas

variable {K : Type} [LinearOrderedField K]

theorem evaluateBsimDc_fwd (phy : BsimPhysics K) (p : BsimParamsK K)
    (w l vd vg vs vb temp : K) (hm : p.mosType = MosType.Nmos)
    (h : ¬ (vd - vs < 0)) :
    evaluateBsimDc phy p w l vd vg vs vb temp =
      evalPost phy p w l (vg - vs) (vd - vs) (vb - vs) 1 (vg - vs) (vd - vs)
        (vb - vs) temp := by
  unfold evaluateBsimDc
  rw [hm]
  dsimp only
  rw [if_neg h]

theorem evaluateBsimDc_rev (phy : BsimPhysics K) (p : BsimParamsK K)
    (w l vd vg vs vb temp : K) (hm : p.mosType = MosType.Nmos)
    (h : vd - vs < 0) :
    evaluateBsimDc phy p w l vd vg vs vb temp =
      evalPost phy p w l (vg - vd) (-(vd - vs)) (vb - vs) 1 (vg - vs)
        (vd - vs) (vb - vs) temp := by
  unfold evaluateBsimDc
  rw [hm]
  dsimp only
  rw [if_pos h]

theorem evaluateBsimDc_fwd_pmos (phy : BsimPhysics K) (p : BsimParamsK K)
    (w l vd vg vs vb temp : K) (hm : p.mosType = MosType.Pmos)
    (h : ¬ (-vs - -vd < 0)) :
    evaluateBsimDc phy p w l vd vg vs vb temp =
      evalPost phy p w l (-vg - -vd) (-vs - -vd) (-vb - -vd) (-1) (vg - vs)
        (vd - vs) (vb - vs) temp := by
  unfold evaluateBsimDc
  rw [hm]
  dsimp only
  rw [if_neg h]

theorem evaluateBsimDc_rev_pmos (phy : BsimPhysics K) (p : BsimParamsK K)
    (w l vd vg vs vb temp : K) (hm : p.mosType = MosType.Pmos)
    (h : -vs - -vd < 0) :
    evaluateBsimDc phy p w l vd vg vs vb temp =
      evalPost phy p w l (-vg - -vs) (-(-vs - -vd)) (-vb - -vd) (-1)
        (vg - vs) (vd - vs) (vb - vs) temp := by
  unfold evaluateBsimDc
  rw [hm]
  dsimp only
  rw [if_pos h]

theorem evalPost_region_cutoff (phy : BsimPhysics K) (p : BsimParamsK K)
    (w l vgs vds vbs sign o1 o2 o3 temp : K) :
    (evalPost phy p w l vgs vds vbs sign o1 o2 o3 temp).region =
      MosRegion.Cutoff ↔
    vgs - calcVth phy p vbs vds (max (l - 2 * p.lint) (1 / 10 ^ 9)) temp
      ≤ 0 := by
  unfold evalPost
  dsimp only
  by_cases h : vgs -
      calcVth phy p vbs vds (max (l - 2 * p.lint) (1 / 10 ^ 9)) temp ≤ 0
  · rw [if_pos h]
    unfold finishBsim
    exact iff_of_true rfl h
  · rw [if_neg h]
    unfold finishBsim
    split
    · exact iff_of_false (by simp) h
    · exact iff_of_false (by simp) h

theorem evalPost_ids_cutoff (phy : BsimPhysics K) (p : BsimParamsK K)
    (w l vgs vds vbs1 vbs2 sign o1 o2 o3 o4 o5 o6 temp : K)
    (hvth : calcVth phy p vbs1 vds (max (l - 2 * p.lint) (1 / 10 ^ 9)) temp =
      calcVth phy p vbs2 vds (max (l - 2 * p.lint) (1 / 10 ^ 9)) temp)
    (hcut : vgs -
      calcVth phy p vbs1 vds (max (l - 2 * p.lint) (1 / 10 ^ 9)) temp ≤ 0) :
    (evalPost phy p w l vgs vds vbs1 sign o1 o2 o3 temp).ids =
    (evalPost phy p w l vgs vds vbs2 sign o4 o5 o6 temp).ids := by
  unfold evalPost
  dsimp only
  rw [hvth]
  rw [if_pos (hvth ▸ hcut), if_pos (hvth ▸ hcut)]
  unfold finishBsim
  dsimp only

end BsimLemmas

/-- Parameters of the symmetric-cutoff instance: NMOS, vth0 = 1, nfactor
= 2, u0 = 1, tox chosen so Cox = 1, Tnom = 300, every other knob 0, and
kt2 = 1 so the temperature drift couples vbs into Vth. -/
def cexParams {K : Type} [LinearOrderedField K] : BsimParamsK K :=
  ⟨MosType.Nmos, 1, 0, 0, 0, 0, 0, 0, 0, 2, 0, 1, 0, 0, 0,
    (39 / 10) * (8854 / 10 ^ 15), 0, 0, 0, 300, 0, 0, 0, 1⟩

/-- cexParams with kt2 = 0: the threshold is then independent of vbs. -/
def symParams {K : Type} [LinearOrderedField K] : BsimParamsK K :=
  { cexParams with kt2 := 0 }

/-- A computable all-constant physics record: rexp constantly 1 and every
modelled submodule 0. -/
def phyOne {K : Type} [LinearOrderedField K] : BsimPhysics K :=
  ⟨fun _ => 1, fun _ _ _ => 0, 1, 1, fun _ _ _ _ _ => 0,
    fun _ _ _ _ _ _ => 0, fun _ _ _ _ _ => (0, 0), fun _ _ _ _ _ => (0, 0),
    fun _ _ _ => 0⟩

/-- The cutoff drain current before clamping: i0 · exp(vgst/(n·Vt)) ·
(1 − exp(−Vds/Vt)). -/
def cutoffIds {K : Type} [LinearOrderedField K] (phy : BsimPhysics K)
    (p : BsimParamsK K) (w l vgs vds vbs temp : K) : K :=
  let leff := max (l - 2 * p.lint) (1 / 10 ^ 9)
  let weff := max (w - 2 * p.wint) (1 / 10 ^ 9)
  let cox := epsilonOx / p.tox
  let vt := kBoltzmann * temp / qElectron
  let vth := calcVth phy p vbs vds leff temp
  let n := max p.nfactor 1
  let i0 := weff / leff * p.u0 * (1 / 10 ^ 4) * cox * vt * vt * (n - 1)
  i0 * phy.rexp ((vgs - vth) / (n * vt)) * (1 - phy.rexp (-vds / vt))

theorem evalPost_ids_cutoff_eq {K : Type} [LinearOrderedField K]
    (phy : BsimPhysics K) (p : BsimParamsK K)
    (w l vgs vds vbs o1 o2 o3 temp : K)
    (hcut : vgs -
      calcVth phy p vbs vds (max (l - 2 * p.lint) (1 / 10 ^ 9)) temp ≤ 0)
    (hnn : 0 ≤ cutoffIds phy p w l vgs vds vbs temp) :
    (evalPost phy p w l vgs vds vbs 1 o1 o2 o3 temp).ids =
      cutoffIds phy p w l vgs vds vbs temp := by
  unfold cutoffIds at hnn ⊢
  dsimp only at hnn ⊢
  unfold evalPost
  dsimp only
  rw [if_pos hcut]
  unfold finishBsim
  dsimp only
  rw [max_eq_left hnn, max_eq_left hnn, mul_one]

/-- C6 counterexample: NMOS cexParams at 600 K with terminals
(vd, vg, vs, vb) = (1, 0, 0, 0) against the drain/source exchange
(0, 0, 1, 0).  Both evaluations land in cutoff with vds = 1, but the
exchanged call keeps vbs = vb − vs of the original source (−1 instead of
0), so kt2 shifts its threshold down by 1 and its subthreshold current is
strictly larger in magnitude. -/
theorem C6_counterexample :
    ¬ (|(evaluateBsimDc
        (⟨Real.exp, fun _ _ _ => 0, 1, 1, fun _ _ _ _ _ => 0,
          fun _ _ _ _ _ _ => 0, fun _ _ _ _ _ => (0, 0),
          fun _ _ _ _ _ => (0, 0), fun _ _ _ => 0⟩ : BsimPhysics ℝ)
        cexParams 1 1 1 0 0 0 600).ids| =
      |(evaluateBsimDc
        (⟨Real.exp, fun _ _ _ => 0, 1, 1, fun _ _ _ _ _ => 0,
          fun _ _ _ _ _ _ => 0, fun _ _ _ _ _ => (0, 0),
          fun _ _ _ _ _ => (0, 0), fun _ _ _ => 0⟩ : BsimPhysics ℝ)
        cexParams 1 1 0 0 1 0 600).ids|) := by
  set phy : BsimPhysics ℝ :=
    ⟨Real.exp, fun _ _ _ => 0, 1, 1, fun _ _ _ _ _ => 0,
      fun _ _ _ _ _ _ => 0, fun _ _ _ _ _ => (0, 0),
      fun _ _ _ _ _ => (0, 0), fun _ _ _ => 0⟩ with hphy
  rw [evaluateBsimDc_fwd phy cexParams 1 1 1 0 0 0 600 rfl (by norm_num)]
  rw [evaluateBsimDc_rev phy cexParams 1 1 0 0 1 0 600 rfl (by norm_num)]
  rw [neg_sub]
  norm_num
  have hcutA : (0 : ℝ) - calcVth phy cexParams 0 1
      (max (1 - 2 * cexParams.lint) (1 / 10 ^ 9)) 600 ≤ 0 := by
    rw [hphy]
    norm_num [calcVth, cexParams]
  have hcutB : (0 : ℝ) - calcVth phy cexParams (-1) 1
      (max (1 - 2 * cexParams.lint) (1 / 10 ^ 9)) 600 ≤ 0 := by
    rw [hphy]
    norm_num [calcVth, cexParams]
  have hF : (0 : ℝ) < 1 - Real.exp (-(26700 / 1381)) := by
    have h := Real.exp_lt_exp.mpr (show -(26700 / 1381 : ℝ) < 0 by norm_num)
    rw [Real.exp_zero] at h
    linarith
  have hE : Real.exp (-(13350 / 1381) : ℝ) < 1 := by
    have h := Real.exp_lt_exp.mpr (show -(13350 / 1381 : ℝ) < 0 by norm_num)
    rw [Real.exp_zero] at h
    linarith
  have hAval : cutoffIds phy cexParams 1 1 0 1 0 600 =
      (1381 / 26700 : ℝ) ^ 2 / 10 ^ 4 * Real.exp (-(13350 / 1381)) *
        (1 - Real.exp (-(26700 / 1381))) := by
    rw [hphy]
    norm_num [cutoffIds, calcVth, cexParams, epsilonOx, kBoltzmann, qElectron]
  have hBval : cutoffIds phy cexParams 1 1 0 1 (-1) 600 =
      (1381 / 26700 : ℝ) ^ 2 / 10 ^ 4 *
        (1 - Real.exp (-(26700 / 1381))) := by
    rw [hphy]
    norm_num [cutoffIds, calcVth, cexParams, epsilonOx, kBoltzmann, qElectron,
      Real.exp_zero]
  have hi0 : (0 : ℝ) < (1381 / 26700 : ℝ) ^ 2 / 10 ^ 4 := by positivity
  have hApos : 0 ≤ cutoffIds phy cexParams 1 1 0 1 0 600 := by
    rw [hAval]
    exact mul_nonneg (mul_nonneg hi0.le (Real.exp_pos _).le) hF.le
  have hBpos : 0 ≤ cutoffIds phy cexParams 1 1 0 1 (-1) 600 := by
    rw [hBval]
    exact mul_nonneg hi0.le hF.le
  rw [evalPost_ids_cutoff_eq phy cexParams 1 1 0 1 0 0 1 0 600 hcutA hApos]
  rw [evalPost_ids_cutoff_eq phy cexParams 1 1 0 1 (-1) (-1) (-1) (-1) 600
    hcutB hBpos]
  rw [abs_of_nonneg hApos, abs_of_nonneg hBpos, hAval, hBval]
  apply ne_of_lt
  calc (1381 / 26700 : ℝ) ^ 2 / 10 ^ 4 * Real.exp (-(13350 / 1381)) *
        (1 - Real.exp (-(26700 / 1381)))
      < (1381 / 26700 : ℝ) ^ 2 / 10 ^ 4 * 1 *
        (1 - Real.exp (-(26700 / 1381))) := by
        exact mul_lt_mul_of_pos_right (mul_lt_mul_of_pos_left hE hi0) hF
    _ = (1381 / 26700 : ℝ) ^ 2 / 10 ^ 4 *
        (1 - Real.exp (-(26700 / 1381))) := by ring

/-- C6 (amended): exchanging the drain and source voltages preserves |Ids|
only when the threshold does not depend on Vbs — with kt2 = 0, dvt2 = 0
and a Vbs-independent body-effect term — and the device is in cutoff (the
reversal recomputes vgs from the swapped terminals but keeps vbs relative
to the original source, so any body dependence of Vth breaks the
symmetry); in that restricted setting, for every parameter record (NMOS or
PMOS) and either ordering of the terminal voltages, the two drain
currents agree exactly. -/
theorem C6_swap_cutoff {K : Type} [LinearOrderedField K]
    (phy : BsimPhysics K) (p : BsimParamsK K) (w l vd vg vs vb temp : K)
    (hbody : ∀ v1 v2 : K, phy.bodyTerm p.k1 p.k2 v1 = phy.bodyTerm p.k1 p.k2 v2)
    (hkt2 : p.kt2 = 0)
    (hdvt2 : p.dvt2 = 0)
    (hreg : (evaluateBsimDc phy p w l vd vg vs vb temp).region =
      MosRegion.Cutoff) :
    |(evaluateBsimDc phy p w l vd vg vs vb temp).ids| =
    |(evaluateBsimDc phy p w l vs vg vd vb temp).ids| := by
  have hvthEq : ∀ b1 b2 vds2 l2 : K,
      calcVth phy p b1 vds2 l2 temp = calcVth phy p b2 vds2 l2 temp := by
    intro b1 b2 vds2 l2
    unfold calcVth
    rw [hkt2, hdvt2, hbody b1 b2]
    ring
  by_cases heq : vd = vs
  · rw [heq]
  · cases hm : p.mosType with
    | Nmos =>
      rcases lt_or_gt_of_ne heq with hlt | hgt
      · rw [evaluateBsimDc_rev phy p w l vd vg vs vb temp hm
          (by linarith)] at hreg ⊢
        rw [evaluateBsimDc_fwd phy p w l vs vg vd vb temp hm (by linarith)]
        rw [neg_sub] at hreg ⊢
        rw [evalPost_region_cutoff] at hreg
        exact congrArg abs
          (evalPost_ids_cutoff phy p w l (vg - vd) (vs - vd) (vb - vs)
            (vb - vd) 1 (vg - vs) (vd - vs) (vb - vs) (vg - vd) (vs - vd)
            (vb - vd) temp (hvthEq (vb - vs) (vb - vd) (vs - vd) _) hreg)
      · rw [evaluateBsimDc_fwd phy p w l vd vg vs vb temp hm
          (by intro hc; linarith)] at hreg ⊢
        rw [evaluateBsimDc_rev phy p w l vs vg vd vb temp hm (by linarith)]
        rw [neg_sub]
        rw [evalPost_region_cutoff] at hreg
        exact congrArg abs
          (evalPost_ids_cutoff phy p w l (vg - vs) (vd - vs) (vb - vs)
            (vb - vd) 1 (vg - vs) (vd - vs) (vb - vs) (vg - vd) (vs - vd)
            (vb - vd) temp (hvthEq (vb - vs) (vb - vd) (vd - vs) _) hreg)
    | Pmos =>
      rcases lt_or_gt_of_ne heq with hlt | hgt
      · rw [evaluateBsimDc_rev_pmos phy p w l vd vg vs vb temp hm
          (by linarith)] at hreg ⊢
        rw [evaluateBsimDc_fwd_pmos phy p w l vs vg vd vb temp hm
          (by intro hc; linarith)]
        rw [show (-(-vs - -vd) : K) = -vd - -vs by ring] at hreg ⊢
        rw [evalPost_region_cutoff] at hreg
        exact congrArg abs
          (evalPost_ids_cutoff phy p w l (-vg - -vs) (-vd - -vs)
            (-vb - -vd) (-vb - -vs) (-1) (vg - vs) (vd - vs) (vb - vs)
            (vg - vd) (vs - vd) (vb - vd) temp
            (hvthEq (-vb - -vd) (-vb - -vs) (-vd - -vs) _) hreg)
      · rw [evaluateBsimDc_fwd_pmos phy p w l vd vg vs vb temp hm
          (by intro hc; linarith)] at hreg ⊢
        rw [evaluateBsimDc_rev_pmos phy p w l vs vg vd vb temp hm
          (by linarith)]
        rw [show (-(-vd - -vs) : K) = -vs - -vd by ring]
        rw [evalPost_region_cutoff] at hreg
        exact congrArg abs
          (evalPost_ids_cutoff phy p w l (-vg - -vd) (-vs - -vd)
            (-vb - -vd) (-vb - -vs) (-1) (vg - vs) (vd - vs) (vb - vs)
            (vg - vd) (vs - vd) (vb - vd) temp
            (hvthEq (-vb - -vd) (-vb - -vs) (-vs - -vd) _) hreg)


/-- Witness for the amended C6: the all-constant physics, symParams, and
the cutoff bias vd = 1, vg = vs = vb = 0 at 600 K. -/
theorem C6_witness :
    (symParams (K := ℚ)).kt2 = 0 ∧
    |(evaluateBsimDc (phyOne (K := ℚ)) symParams 1 1 1 0 0 0 600).ids| =
      |(evaluateBsimDc (phyOne (K := ℚ)) symParams 1 1 0 0 1 0 600).ids| :=
  ⟨rfl,
    C6_swap_cutoff phyOne symParams 1 1 1 0 0 0 600
      (fun _ _ => rfl) rfl rfl
      (by
        rw [evaluateBsimDc_fwd phyOne symParams 1 1 1 0 0 0 600 rfl
          (by norm_num)]
        rw [evalPost_region_cutoff]
        norm_num [calcVth, phyOne, symParams, cexParams])⟩

end MySpice
